import Mathlib

/-!
# BSP-tree traversal (`CBSPNode::intersect`, `src/src/BSPNode.h`)

A shallow embedding of the BSP node class and of its ray traversal, followed by
theorems about the traversal.

Modelling decisions.

* C++ `double`/`float` values are the type `Dbl`: an exact rational, a negative
  zero, the two infinities, or NaN.  Special values follow IEEE-754 (division by a
  zero, comparisons with NaN, signed zeros).  Finite arithmetic is exact: rounding,
  overflow and underflow are not modelled, and `float` and `double` are not
  distinguished.
* A smart pointer `ptr_bspnode_t` is the inductive type `ptr_bspnode_t`: the null
  pointer, or a pointer to a node with the five member fields of `CBSPNode`.
* Dereferencing a null child and indexing a 3-vector out of range are undefined
  behaviour in C++; the embedding reports them as a `Fault`.
* `Ray`, `IPrim` and `Epsilon` are declared in headers that are not part of the
  sources at hand; they are modelled from the specification, and `Epsilon` is a
  parameter of the traversal.
* The traversal result carries a ghost `log` of the calls made and of the
  primitive tests performed, so that statements about which node is visited and
  which primitive is tested can be expressed.
-/

namespace BSP

/-! ## Floating-point values -/

/-- A C++ floating-point value: `fin q` is the finite value `q` (with `fin 0` the
positive zero), `negZero` is `-0.0`, `pinf`/`ninf` are the infinities. -/
inductive Dbl where
  | fin (q : ℚ)
  | negZero
  | pinf
  | ninf
  | nan
  deriving DecidableEq

namespace Dbl

instance : Inhabited Dbl := ⟨fin 0⟩

/-- The sign bit of a value (`true` for negative values and for `-0.0`). -/
def signBit : Dbl → Bool
  | fin q => decide (q < 0)
  | negZero => true
  | pinf => false
  | ninf => true
  | nan => false

/-- Whether the value is one of the two zeros. -/
def isZero : Dbl → Bool
  | fin q => decide (q = 0)
  | negZero => true
  | _ => false

/-- The zero with the given sign bit. -/
def zeroOf (neg : Bool) : Dbl := if neg then negZero else fin 0

/-- The infinity with the given sign bit. -/
def infOf (neg : Bool) : Dbl := if neg then ninf else pinf

/-- Unary minus. -/
def neg : Dbl → Dbl
  | fin q => if q = 0 then negZero else fin (-q)
  | negZero => fin 0
  | pinf => ninf
  | ninf => pinf
  | nan => nan

/-- The C++ operator `+`. -/
def add : Dbl → Dbl → Dbl
  | nan, _ => nan
  | _, nan => nan
  | pinf, ninf => nan
  | ninf, pinf => nan
  | pinf, _ => pinf
  | _, pinf => pinf
  | ninf, _ => ninf
  | _, ninf => ninf
  | negZero, negZero => negZero
  | negZero, fin b => fin b
  | fin a, negZero => fin a
  | fin a, fin b => fin (a + b)

/-- The C++ operator `-` (binary). -/
def sub (x y : Dbl) : Dbl := add x (neg y)

/-- The C++ operator `/`. -/
def div : Dbl → Dbl → Dbl
  | nan, _ => nan
  | _, nan => nan
  | pinf, pinf => nan
  | pinf, ninf => nan
  | ninf, pinf => nan
  | ninf, ninf => nan
  | pinf, y => infOf (signBit y)
  | ninf, y => infOf (!signBit y)
  | x, pinf => zeroOf (signBit x)
  | x, ninf => zeroOf (!signBit x)
  | x, y =>
    if isZero y then
      if isZero x then nan else infOf (signBit x != signBit y)
    else if isZero x then zeroOf (signBit x != signBit y)
    else
      match x, y with
      | fin a, fin b => fin (a / b)
      | _, _ => nan

/-- The C++ operator `<`. -/
def lt : Dbl → Dbl → Bool
  | nan, _ => false
  | _, nan => false
  | _, ninf => false
  | pinf, _ => false
  | ninf, _ => true
  | _, pinf => true
  | negZero, negZero => false
  | negZero, fin b => decide (0 < b)
  | fin a, negZero => decide (a < 0)
  | fin a, fin b => decide (a < b)

/-- The C++ operator `<=`. -/
def le : Dbl → Dbl → Bool
  | nan, _ => false
  | _, nan => false
  | ninf, _ => true
  | _, pinf => true
  | _, ninf => false
  | pinf, _ => false
  | negZero, negZero => true
  | negZero, fin b => decide (0 ≤ b)
  | fin a, negZero => decide (a ≤ 0)
  | fin a, fin b => decide (a ≤ b)

/-- The C++ operator `>=`. -/
def ge (x y : Dbl) : Bool := le y x

end Dbl

/-! ## Rays and primitives -/

/-- Undefined behaviour of the C++ code that the embedding makes explicit. -/
inductive Fault where
  | nullDeref
  | indexOutOfRange
  deriving DecidableEq

/-- Modelled from the spec: the 3-vector type `Vec3f` (declared in `types.h`,
which is missing); three real components, indexed by 0, 1, 2. -/
structure Vec3f where
  x : Dbl
  y : Dbl
  z : Dbl
  deriving DecidableEq

/-- The indexing operator of `Vec3f`; an index outside 0..2 is undefined behaviour. -/
def Vec3f.get (v : Vec3f) (i : Int) : Except Fault Dbl :=
  if i = 0 then .ok v.x
  else if i = 1 then .ok v.y
  else if i = 2 then .ok v.z
  else .error .indexOutOfRange

/-- Modelled from the spec: the ray of `ray.h` (missing): origin, direction, the
distance `t` to the closest hit so far and the "hit found" flag. -/
structure Ray where
  org : Vec3f
  dir : Vec3f
  t : Dbl
  hit : Bool
  deriving DecidableEq

/-- Modelled from the spec: the primitive capability of `IPrim.h` (missing): an
intersection routine that may update the ray it is given; the node consumes no
other result of it. -/
structure IPrim where
  intersect : Ray → Ray

/-! ## Nodes -/

/-- A `ptr_bspnode_t`: null, or a pointer to a `CBSPNode` with its five members. -/
inductive ptr_bspnode_t where
  | null
  | node (m_vpPrims : List IPrim) (m_splitDim : Int) (m_splitVal : Dbl)
      (m_pLeft m_pRight : ptr_bspnode_t)

namespace CBSPNode

/-- The private general constructor (`BSPNode.h`, 159-165). -/
def general (vpPrims : Option (List IPrim)) (splitDim : Int) (splitVal : Dbl)
    (left right : ptr_bspnode_t) : ptr_bspnode_t :=
  .node (vpPrims.getD []) splitDim splitVal left right

/-- The public leaf-node constructor (`BSPNode.h`, 25-27). -/
def leaf (vpPrims : List IPrim) : ptr_bspnode_t :=
  general (some vpPrims) 0 (Dbl.fin 0) .null .null

/-- The public branch-node constructor (`BSPNode.h`, 35-37). -/
def branch (splitDim : Int) (splitVal : Dbl) (left right : ptr_bspnode_t) : ptr_bspnode_t :=
  general none splitDim splitVal left right

end CBSPNode

/-- Conversion of a smart pointer to `bool`: true when it is not null. -/
def ptr_bspnode_t.toBool : ptr_bspnode_t → Bool
  | .null => false
  | .node _ _ _ _ _ => true

/-- The member `isLeaf` (`BSPNode.h`, 172), on the two child pointers of a node. -/
def isLeaf (m_pLeft m_pRight : ptr_bspnode_t) : Bool :=
  !m_pLeft.toBool && !m_pRight.toBool

/-! ## The traversal -/

/-- The two children of a branch node. -/
inductive Side where
  | left
  | right
  deriving DecidableEq

/-- What the traversal does, as recorded in the ghost log.  A node is named by the
path of child choices leading to it from the node the traversal was started on. -/
inductive Event where
  /-- An invocation of `intersect` on the node at `path` with the interval `[t0, t1]`. -/
  | call (path : List Side) (t0 t1 : Dbl)
  /-- The intersection routine of the `i`-th primitive of the leaf at `path` was applied. -/
  | test (path : List Side) (i : Nat)
  deriving DecidableEq

/-- The same event, seen from the parent whose child on side `s` produced it. -/
def Event.under (s : Side) : Event → Event
  | .call p t0 t1 => .call (s :: p) t0 t1
  | .test p i => .test (s :: p) i

/-- The path of the node an event happened at. -/
def Event.path : Event → List Side
  | .call p _ _ => p
  | .test p _ => p

/-- The result of a call of `intersect`: the returned `bool`, the state the ray is left
in, and the ghost log of the calls and primitive tests that took place. -/
structure Outcome where
  ret : Bool
  ray : Ray
  log : List Event

/-- The loop over `m_vpPrims` (`BSPNode.h`, 55-60): each primitive's routine is applied to
the ray; `i` is the position of the first primitive of the list within the leaf. -/
def forEachPrim : List IPrim → Nat → Ray → Ray × List Event
  | [], _, ray => (ray, [])
  | EachPrim :: rest, i, ray =>
    let r := forEachPrim rest (i + 1) (EachPrim.intersect ray)
    (r.1, Event.test [] i :: r.2)

/-- The choice of line 89: the right item when the direction component is negative. -/
def FrontNode {α : Type} (dirComp : Dbl) (Left Right : α) : α :=
  if Dbl.lt dirComp (Dbl.fin 0) then Right else Left

/-- The choice of line 90: the left item when the direction component is negative. -/
def BackNode {α : Type} (dirComp : Dbl) (Left Right : α) : α :=
  if Dbl.lt dirComp (Dbl.fin 0) then Left else Right

/-- The log of a call that made a single recursive call, into the child on side `s`. -/
def Outcome.viaChild (s : Side) (t0 t1 : Dbl) (o : Outcome) : Outcome :=
  { o with log := Event.call [] t0 t1 :: o.log.map (Event.under s) }

/-- The result of a call that visited the front child, which reported no hit (outcome
`f`), and then the back child (outcome `b`). -/
def Outcome.viaBoth (front back : Side) (t0 t1 : Dbl) (f b : Outcome) : Outcome :=
  { ret := b.ret, ray := b.ray,
    log := Event.call [] t0 t1 ::
      (f.log.map (Event.under front) ++ b.log.map (Event.under back)) }

/-- The method `CBSPNode::intersect` (`BSPNode.h`, 51-106), called through a pointer.
`Left`/`Right` stand for a call through the respective child pointer. -/
def intersect (Epsilon : Dbl) :
    ptr_bspnode_t → Ray → Dbl → Dbl → Except Fault Outcome
  | .null, _, _, _ => .error .nullDeref
  | .node m_vpPrims m_splitDim m_splitVal m_pLeft m_pRight, ray, t0, t1 =>
    if isLeaf m_pLeft m_pRight then
      let r := forEachPrim m_vpPrims 0 ray
      .ok { ret := r.1.hit && Dbl.lt r.1.t (Dbl.add t1 Epsilon),
            ray := r.1,
            log := Event.call [] t0 t1 :: r.2 }
    else
      match ray.org.get m_splitDim, ray.dir.get m_splitDim with
      | .error e, _ => .error e
      | .ok _, .error e => .error e
      | .ok orgComp, .ok dirComp =>
        let Distance := Dbl.sub m_splitVal orgComp
        let RayValue := Dbl.div Distance dirComp
        let Left := fun (ray : Ray) (t0 t1 : Dbl) => intersect Epsilon m_pLeft ray t0 t1
        let Right := fun (ray : Ray) (t0 t1 : Dbl) => intersect Epsilon m_pRight ray t0 t1
        let front := FrontNode dirComp Side.left Side.right
        let back := BackNode dirComp Side.left Side.right
        if Dbl.ge t0 RayValue then
          match BackNode dirComp Left Right ray t0 t1 with
          | .error e => .error e
          | .ok b => .ok (b.viaChild back t0 t1)
        else if Dbl.le t1 RayValue then
          match FrontNode dirComp Left Right ray t0 t1 with
          | .error e => .error e
          | .ok f => .ok (f.viaChild front t0 t1)
        else
          match FrontNode dirComp Left Right ray t0 RayValue with
          | .error e => .error e
          | .ok f =>
            if f.ret then .ok { (f.viaChild front t0 t1) with ret := true }
            else
              match BackNode dirComp Left Right f.ray RayValue t1 with
              | .error e => .error e
              | .ok b => .ok (Outcome.viaBoth front back t0 t1 f b)

/-! ## Notions used by the specification -/

/-- Testing a ray against every primitive of a list, in list order. -/
def testAgainst (prims : List IPrim) (ray : Ray) : Ray :=
  prims.foldl (fun r p => p.intersect r) ray

/-- Modelled from the spec: the distance at which the ray's geometry meets a
primitive, read off by applying the primitive's routine to the ray with no hit recorded
(`t` infinite, flag clear); `none` when the primitive is missed. -/
def hitDistance (p : IPrim) (ray : Ray) : Option Dbl :=
  let r := p.intersect { ray with t := Dbl.pinf, hit := false }
  if r.hit then some r.t else none

/-- Modelled from the spec: the contract of a primitive's routine, "update the ray's hit
flag and distance only if the hit found is strictly closer than the recorded distance". -/
def UpdatesOnlyIfCloser (p : IPrim) : Prop :=
  ∀ ray : Ray, p.intersect ray =
    match hitDistance p ray with
    | some d => if Dbl.lt d ray.t then { ray with t := d, hit := true } else ray
    | none => ray

/-- Modelled from the spec: a primitive that a ray of origin `org` and direction `dir`
meets at distance `dist org dir`, with the routine the primitive contract asks for. -/
def closerPrim (dist : Vec3f → Vec3f → Option Dbl) : IPrim :=
  ⟨fun ray =>
    match dist ray.org ray.dir with
    | some d => if Dbl.lt d ray.t then { ray with t := d, hit := true } else ray
    | none => ray⟩

/-- Modelled from the spec: "a primitive hit at `t = d`", a primitive that the ray under
consideration meets at the fixed distance `d`. -/
def hitAt (d : Dbl) : IPrim := closerPrim (fun _ _ => some d)

/-- Modelled from the spec: a primitive located at `x = c` (the plane `x = c`); a ray
meets it at distance `(c - org.x) / dir.x` when that is positive. -/
def planeX (c : Dbl) : IPrim :=
  closerPrim (fun org dir =>
    let d := Dbl.div (Dbl.sub c org.x) dir.x
    if Dbl.lt (Dbl.fin 0) d then some d else none)

/-- A primitive, tested on the ray in the state given, finds a hit strictly closer than the
recorded one (and so records it). -/
def reportsHit (p : IPrim) (ray : Ray) : Bool :=
  match hitDistance p ray with
  | some d => Dbl.lt d ray.t
  | none => false

/-- Some primitive of the list, tested in its turn (on the ray as the primitives before
it in the list left it), reports a hit. -/
def reportsInTurn (prims : List IPrim) (ray : Ray) : Prop :=
  ∃ i p, prims.get? i = some p ∧ reportsHit p (testAgainst (prims.take i) ray) = true

/-- The leaf/branch invariant of the data model, with a valid split dimension at every
branch: the pointer is not null, and the node it points to has no child, or has two
children that satisfy the invariant and a split dimension among 0, 1, 2. -/
def wellFormed : ptr_bspnode_t → Bool
  | .null => false
  | .node _ m_splitDim _ m_pLeft m_pRight =>
    isLeaf m_pLeft m_pRight ||
      (decide (0 ≤ m_splitDim) && decide (m_splitDim < 3) &&
        wellFormed m_pLeft && wellFormed m_pRight)

/-- The child on the given side. -/
def Side.pick {α : Type} : Side → α → α → α
  | Side.left, l, _ => l
  | Side.right, _, r => r

/-- The primitives stored in the leaves of a tree, left to right. -/
def leafPrims : ptr_bspnode_t → List IPrim
  | .null => []
  | .node m_vpPrims _ _ m_pLeft m_pRight =>
    if isLeaf m_pLeft m_pRight then m_vpPrims
    else leafPrims m_pLeft ++ leafPrims m_pRight

/-- The `i`-th primitive of the leaf at `path` below the given node. -/
def primAt : ptr_bspnode_t → List Side → Nat → Option IPrim
  | .null, _, _ => none
  | .node m_vpPrims _ _ m_pLeft m_pRight, [], i =>
    if isLeaf m_pLeft m_pRight then m_vpPrims.get? i else none
  | .node _ _ _ m_pLeft _, Side.left :: path, i => primAt m_pLeft path i
  | .node _ _ _ _ m_pRight, Side.right :: path, i => primAt m_pRight path i

/-- The primitive an event of the log is a test of, if it is a test. -/
def testedPrim (n : ptr_bspnode_t) : Event → Option IPrim
  | .test path i => primAt n path i
  | .call _ _ _ => none

/-- The primitives tested by a traversal with the given log, in the order of testing. -/
def testedPrims (n : ptr_bspnode_t) (log : List Event) : List IPrim :=
  log.filterMap (testedPrim n)

/-- Brute force: the closest hit distance found by testing the ray against every primitive
of the list, if any primitive is hit. -/
def closestHit (prims : List IPrim) (ray : Ray) : Option Dbl :=
  let r := testAgainst prims ray
  if r.hit then some r.t else none

/-- The value `m` is the minimum of the distances at which the ray meets the primitives
of the list that it meets at all. -/
def IsMinHitDistance (prims : List IPrim) (ray : Ray) (m : Dbl) : Prop :=
  (∃ p ∈ prims, hitDistance p ray = some m) ∧
    ∀ p ∈ prims, ∀ d, hitDistance p ray = some d → Dbl.le m d = true

/-- Every split distance that a traversal of the tree computes for the ray is a number. -/
def SplitsDefined (ray : Ray) : ptr_bspnode_t → Prop
  | .null => True
  | .node _ m_splitDim m_splitVal m_pLeft m_pRight =>
    (isLeaf m_pLeft m_pRight = false → ∀ o d, ray.org.get m_splitDim = .ok o →
        ray.dir.get m_splitDim = .ok d → Dbl.div (Dbl.sub m_splitVal o) d ≠ Dbl.nan) ∧
      SplitsDefined ray m_pLeft ∧ SplitsDefined ray m_pRight

/-- A direction component is negative: minus infinity or a negative number. -/
def Dbl.IsNegative (d : Dbl) : Prop := d = Dbl.ninf ∨ ∃ q : ℚ, q < 0 ∧ d = Dbl.fin q

/-- A direction component is positive or zero: plus infinity, a zero of either sign,
or a positive number. -/
def Dbl.IsNonNegative (d : Dbl) : Prop :=
  d = Dbl.pinf ∨ d = Dbl.negZero ∨ ∃ q : ℚ, 0 ≤ q ∧ d = Dbl.fin q

/-! ## The concrete scenario of the specification -/

/-- One branch node splitting axis `x` at 5; the left leaf holds a primitive at `x = 3`,
the right leaf a primitive at `x = 8`. -/
def scenarioTree : ptr_bspnode_t :=
  CBSPNode.branch 0 (Dbl.fin 5)
    (CBSPNode.leaf [planeX (Dbl.fin 3)]) (CBSPNode.leaf [planeX (Dbl.fin 8)])

/-- The ray from `x = 0` in direction `+x`, with no hit recorded: it meets the two
primitives of the scenario at `t = 3` and `t = 8`. -/
def forwardRay : Ray :=
  { org := ⟨Dbl.fin 0, Dbl.fin 0, Dbl.fin 0⟩, dir := ⟨Dbl.fin 1, Dbl.fin 0, Dbl.fin 0⟩,
    t := Dbl.pinf, hit := false }

/-- The reversed ray, from `x = 10` in direction `-x`, with no hit recorded. -/
def reversedRay : Ray :=
  { org := ⟨Dbl.fin 10, Dbl.fin 0, Dbl.fin 0⟩, dir := ⟨Dbl.fin (-1), Dbl.fin 0, Dbl.fin 0⟩,
    t := Dbl.pinf, hit := false }

/-- The ray with which the right leaf of the scenario is entered when a hit at `t = 6`
has been recorded before. -/
def carriedRay : Ray := { forwardRay with t := Dbl.fin 6, hit := true }

/-- A primitive that straddles the split plane `x = 5` of `toleranceTree` (it is stored
in both leaves) and that the forward ray meets just behind the plane. -/
def straddlingPrim : IPrim := hitAt (Dbl.fin (5 + 1 / 2048))

/-- The scenario tree with other primitives: a straddling primitive in both leaves, and
in the right leaf the plane `x = 5 + 1/4096`, which the forward ray meets first. -/
def toleranceTree : ptr_bspnode_t :=
  CBSPNode.branch 0 (Dbl.fin 5) (CBSPNode.leaf [straddlingPrim])
    (CBSPNode.leaf [straddlingPrim, planeX (Dbl.fin (5 + 1 / 4096))])

/-! ## Notions used by the claims on termination, shape and degenerate rays -/

/-- The depth of a tree: the number of nodes on the longest path from the node the pointer
points to down to a leaf (0 for the null pointer). -/
def depth : ptr_bspnode_t → Nat
  | .null => 0
  | .node _ _ _ m_pLeft m_pRight => 1 + max (depth m_pLeft) (depth m_pRight)

/-- The position of the primitive a test event is about (`none` for a call event). -/
def Event.index : Event → Option Nat
  | .call _ _ _ => none
  | .test _ i => some i

/-- What an event is about: the node it happened at and, for a test, the position of the
primitive in that node's list.  Two call events with the same key are two invocations of
`intersect` on the same node; two test events with the same key are two tests of the same
stored primitive. -/
def Event.key (e : Event) : List Side × Option Nat := (e.path, e.index)

/-- The number of children a node has (of the two child pointers, those that are not
null). -/
def childCount : ptr_bspnode_t → Nat
  | .null => 0
  | .node _ _ _ m_pLeft m_pRight =>
    (if m_pLeft.toBool then 1 else 0) + (if m_pRight.toBool then 1 else 0)

/-- The leaf/branch invariant of the data model alone: the pointer is not null, and every
node of the tree has both children or none. -/
def bothOrNone : ptr_bspnode_t → Bool
  | .null => false
  | .node _ _ _ m_pLeft m_pRight =>
    isLeaf m_pLeft m_pRight || (bothOrNone m_pLeft && bothOrNone m_pRight)

/-- A primitive's routine leaves the origin and the direction of the ray as they are. -/
def KeepsGeometry (p : IPrim) : Prop :=
  ∀ ray : Ray, (p.intersect ray).org = ray.org ∧ (p.intersect ray).dir = ray.dir

/-- Modelled from the spec: a primitive located at `y = c` (the plane `y = c`); a ray
meets it at distance `(c - org.y) / dir.y` when that is positive. -/
def planeY (c : Dbl) : IPrim :=
  closerPrim (fun org dir =>
    let d := Dbl.div (Dbl.sub c org.y) dir.y
    if Dbl.lt (Dbl.fin 0) d then some d else none)

/-- The ray from the origin in direction `+y`, with no hit recorded. -/
def upRay : Ray :=
  { org := ⟨Dbl.fin 0, Dbl.fin 0, Dbl.fin 0⟩, dir := ⟨Dbl.fin 0, Dbl.fin 1, Dbl.fin 0⟩,
    t := Dbl.pinf, hit := false }

/-- A tree whose root splits axis `x` at 0, the plane `upRay` runs in; the left child
splits axis `y` at 100 and holds the plane `y = 50` in its left leaf. -/
def planeTree : ptr_bspnode_t :=
  CBSPNode.branch 0 (Dbl.fin 0)
    (CBSPNode.branch 1 (Dbl.fin 100) (CBSPNode.leaf [planeY (Dbl.fin 50)]) (CBSPNode.leaf []))
    (CBSPNode.leaf [])

/-- The ray from `(3, 0, 0)` in direction `(-0.0, 1, 0)`, with no hit recorded: it runs
parallel to the planes `x = c`, on the side `x < 5`. -/
def negZeroRay : Ray :=
  { org := ⟨Dbl.fin 3, Dbl.fin 0, Dbl.fin 0⟩, dir := ⟨Dbl.negZero, Dbl.fin 1, Dbl.fin 0⟩,
    t := Dbl.pinf, hit := false }

/-- One branch node splitting axis `x` at 5; the left leaf holds the plane `y = 2`, the
right leaf is empty. -/
def parallelTree : ptr_bspnode_t :=
  CBSPNode.branch 0 (Dbl.fin 5) (CBSPNode.leaf [planeY (Dbl.fin 2)]) (CBSPNode.leaf [])

/-- A node built by the public branch constructor from a null pointer and a leaf. -/
def oneChildNode : ptr_bspnode_t :=
  CBSPNode.branch 0 (Dbl.fin 5) .null (CBSPNode.leaf [])

/-! ## Notions used by the comparison with brute force over the whole tree -/

/-- The forward ray of the scenario entering a leaf with a hit at `t = 1` recorded. -/
def enteredRay : Ray := { forwardRay with t := Dbl.fin 1, hit := true }

/-! ## Order facts about `Dbl` -/

namespace Dbl

theorem lt_irrefl (a : Dbl) : lt a a = false := by
  cases a <;> simp [lt]

theorem lt_trans {a b c : Dbl} (h1 : lt a b = true) (h2 : lt b c = true) : lt a c = true := by
  cases a <;> cases b <;> cases c <;> simp_all [lt] <;> linarith

theorem le_of_lt {a b : Dbl} (h : lt a b = true) : le a b = true := by
  cases a <;> cases b <;> simp_all [lt, le] <;> linarith

theorem le_eq_false_of_lt {a b : Dbl} (h : lt a b = true) : le b a = false := by
  cases a <;> cases b <;> simp_all [lt, le]

theorem lt_eq_false_of_le {a b : Dbl} (h : le a b = true) : lt b a = false := by
  cases a <;> cases b <;> simp_all [lt, le]

theorem le_of_lt_eq_false {a b : Dbl} (ha : a ≠ nan) (hb : b ≠ nan) (h : lt a b = false) :
    le b a = true := by
  cases a <;> cases b <;> simp_all [lt, le]

theorem lt_of_le_eq_false {a b : Dbl} (ha : a ≠ nan) (hb : b ≠ nan) (h : le a b = false) :
    lt b a = true := by
  cases a <;> cases b <;> simp_all [lt, le]

theorem le_refl {a : Dbl} (ha : a ≠ nan) : le a a = true := by
  cases a <;> simp_all [le]

theorem le_trans {a b c : Dbl} (h1 : le a b = true) (h2 : le b c = true) : le a c = true := by
  cases a <;> cases b <;> cases c <;> simp_all [le] <;> linarith

theorem lt_of_lt_of_le {a b c : Dbl} (h1 : lt a b = true) (h2 : le b c = true) :
    lt a c = true := by
  cases a <;> cases b <;> cases c <;> simp_all [lt, le] <;> linarith

theorem lt_pinf_of_lt {a b : Dbl} (h : lt a b = true) : lt a pinf = true := by
  cases a <;> cases b <;> simp_all [lt]

theorem ne_nan_of_lt_left {a b : Dbl} (h : lt a b = true) : a ≠ nan := by
  cases a <;> cases b <;> simp_all [lt]

theorem ne_nan_of_lt_right {a b : Dbl} (h : lt a b = true) : b ≠ nan := by
  cases a <;> cases b <;> simp_all [lt]

/-- Adding the tolerance keeps a bound below a larger bound. -/
theorem lt_add_mono {x s t e : Dbl} (h1 : lt x (add s e) = true) (h2 : lt s t = true) :
    lt x (add t e) = true := by
  cases x <;> cases s <;> cases t <;> cases e <;> simp_all [lt, add] <;> linarith

end Dbl

/-! ## Unfolding the traversal -/

theorem forEachPrim_ray (prims : List IPrim) (i : Nat) (ray : Ray) :
    (forEachPrim prims i ray).1 = testAgainst prims ray := by
  induction prims generalizing i ray with
  | nil => rfl
  | cons p ps ih => simp [forEachPrim, testAgainst, ih] 

theorem forEachPrim_log (prims : List IPrim) (i : Nat) (ray : Ray) :
    (forEachPrim prims i ray).2 = (List.range' i prims.length).map (Event.test []) := by
  induction prims generalizing i ray with
  | nil => rfl
  | cons p ps ih => simp [forEachPrim, ih, List.range']

/-- A call on a leaf: every primitive is tested, then the flag and the bound decide. -/
theorem intersect_leaf (Epsilon : Dbl) (prims : List IPrim) (dim : Int) (val : Dbl)
    (l r : ptr_bspnode_t) (h : isLeaf l r = true) (ray : Ray) (t0 t1 : Dbl) :
    intersect Epsilon (.node prims dim val l r) ray t0 t1 =
      .ok { ret := (testAgainst prims ray).hit &&
              Dbl.lt (testAgainst prims ray).t (Dbl.add t1 Epsilon),
            ray := testAgainst prims ray,
            log := Event.call [] t0 t1 :: (List.range prims.length).map (Event.test []) } := by
  simp [intersect, h, forEachPrim_ray, forEachPrim_log, List.range_eq_range']

/-- Choosing between the calls through the two child pointers is calling through the
chosen pointer. -/
theorem FrontNode_apply {α β : Type} (d : Dbl) (f : α → β) (l r : α) :
    FrontNode d (f l) (f r) = f (FrontNode d l r) := by
  unfold FrontNode; split <;> rfl

theorem BackNode_apply {α β : Type} (d : Dbl) (f : α → β) (l r : α) :
    BackNode d (f l) (f r) = f (BackNode d l r) := by
  unfold BackNode; split <;> rfl

/-- A call on a branch node whose split dimension is a valid index, in terms of the calls
through the pointers chosen as front and back node. -/
theorem intersect_branch (Epsilon : Dbl) (prims : List IPrim) (dim : Int) (val : Dbl)
    (l r : ptr_bspnode_t) (h : isLeaf l r = false) (ray : Ray) (t0 t1 o d : Dbl)
    (ho : ray.org.get dim = .ok o) (hd : ray.dir.get dim = .ok d) :
    intersect Epsilon (.node prims dim val l r) ray t0 t1 =
      if Dbl.ge t0 (Dbl.div (Dbl.sub val o) d) then
        (intersect Epsilon (BackNode d l r) ray t0 t1).map
          (Outcome.viaChild (BackNode d Side.left Side.right) t0 t1)
      else if Dbl.le t1 (Dbl.div (Dbl.sub val o) d) then
        (intersect Epsilon (FrontNode d l r) ray t0 t1).map
          (Outcome.viaChild (FrontNode d Side.left Side.right) t0 t1)
      else
        match intersect Epsilon (FrontNode d l r) ray t0 (Dbl.div (Dbl.sub val o) d) with
        | .error e => .error e
        | .ok f =>
          if f.ret then
            .ok { (f.viaChild (FrontNode d Side.left Side.right) t0 t1) with ret := true }
          else
            (intersect Epsilon (BackNode d l r) f.ray (Dbl.div (Dbl.sub val o) d) t1).map
              (Outcome.viaBoth (FrontNode d Side.left Side.right)
                (BackNode d Side.left Side.right) t0 t1 f) := by
  rw [intersect]
  simp only [h, ho, hd, FrontNode, BackNode]
  by_cases hneg : Dbl.lt d (Dbl.fin 0) = true <;>
  by_cases hge : Dbl.ge t0 (Dbl.div (Dbl.sub val o) d) = true <;>
  by_cases hle : Dbl.le t1 (Dbl.div (Dbl.sub val o) d) = true <;>
  simp only [hneg, hge, hle, if_true, if_false, Bool.false_eq_true, Except.map] <;>
  first
    | rfl
    | (cases intersect Epsilon l ray t0 t1 <;> rfl)
    | (cases intersect Epsilon r ray t0 t1 <;> rfl)
    | (cases intersect Epsilon l ray t0 (Dbl.div (Dbl.sub val o) d) with
        | error e => rfl
        | ok f =>
          by_cases hr : f.ret = true
          · simp only [hr, if_true]
          · simp only [hr, if_false, Bool.false_eq_true]
            cases intersect Epsilon r f.ray (Dbl.div (Dbl.sub val o) d) t1 <;> rfl)
    | (cases intersect Epsilon r ray t0 (Dbl.div (Dbl.sub val o) d) with
        | error e => rfl
        | ok f =>
          by_cases hr : f.ret = true
          · simp only [hr, if_true]
          · simp only [hr, if_false, Bool.false_eq_true]
            cases intersect Epsilon l f.ray (Dbl.div (Dbl.sub val o) d) t1 <;> rfl)

/-! ## Leaf nodes -/

/-- C3. On a leaf node (both child pointers null) `intersect` applies the routine of
every primitive of the leaf to the ray, once each and in list order, and returns
`ray.hit && ray.t < t1 + Epsilon` evaluated on the resulting ray; neither the returned
value nor the resulting ray depends on `t0`. -/
theorem leaf_return_value (Epsilon : Dbl) (prims : List IPrim) (dim : Int) (val : Dbl)
    (ray : Ray) (t0 t1 : Dbl) :
    intersect Epsilon (.node prims dim val .null .null) ray t0 t1 =
        .ok { ret := (prims.foldl (fun r p => p.intersect r) ray).hit &&
                Dbl.lt (prims.foldl (fun r p => p.intersect r) ray).t (Dbl.add t1 Epsilon),
              ray := prims.foldl (fun r p => p.intersect r) ray,
              log := Event.call [] t0 t1 ::
                (List.range prims.length).map (Event.test []) } ∧
      ∀ t0' : Dbl,
        (intersect Epsilon (.node prims dim val .null .null) ray t0' t1).map
            (fun o => (o.ret, o.ray)) =
          (intersect Epsilon (.node prims dim val .null .null) ray t0 t1).map
            (fun o => (o.ret, o.ray)) := by
  have h : isLeaf .null .null = true := rfl
  refine ⟨by rw [intersect_leaf _ _ _ _ _ _ h]; rfl, fun t0' => ?_⟩
  rw [intersect_leaf _ _ _ _ _ _ h, intersect_leaf _ _ _ _ _ _ h]
  rfl

/-! ## Branch nodes -/

/-- C6. The front node is the right child and the back node the left child when the
ray's direction component along the split dimension is negative; the front node is the
left child and the back node the right child when it is positive or zero.  The choice is
a function of that component alone. -/
theorem branch_determinism (d : Dbl) (l r : ptr_bspnode_t) :
    (d.IsNegative → FrontNode d l r = r ∧ BackNode d l r = l) ∧
      (d.IsNonNegative → FrontNode d l r = l ∧ BackNode d l r = r) := by
  constructor
  · rintro (rfl | ⟨q, hq, rfl⟩)
    · simp [FrontNode, BackNode, Dbl.lt]
    · simp [FrontNode, BackNode, Dbl.lt, hq]
  · rintro (rfl | rfl | ⟨q, hq, rfl⟩)
    · simp [FrontNode, BackNode, Dbl.lt]
    · simp [FrontNode, BackNode, Dbl.lt]
    · simp [FrontNode, BackNode, Dbl.lt, hq]

/-- C6, at the rays of the scenario: direction `-1` makes the right child the front node,
direction `+1` the left child. -/
theorem branch_determinism_witness :
    (FrontNode (Dbl.fin (-1)) (CBSPNode.leaf [planeX (Dbl.fin 3)]) (CBSPNode.leaf [planeX (Dbl.fin 8)]) =
        CBSPNode.leaf [planeX (Dbl.fin 8)] ∧
      BackNode (Dbl.fin (-1)) (CBSPNode.leaf [planeX (Dbl.fin 3)]) (CBSPNode.leaf [planeX (Dbl.fin 8)]) =
        CBSPNode.leaf [planeX (Dbl.fin 3)]) ∧
    (FrontNode (Dbl.fin 1) (CBSPNode.leaf [planeX (Dbl.fin 3)]) (CBSPNode.leaf [planeX (Dbl.fin 8)]) =
        CBSPNode.leaf [planeX (Dbl.fin 3)] ∧
      BackNode (Dbl.fin 1) (CBSPNode.leaf [planeX (Dbl.fin 3)]) (CBSPNode.leaf [planeX (Dbl.fin 8)]) =
        CBSPNode.leaf [planeX (Dbl.fin 8)]) :=
  ⟨(branch_determinism _ _ _).1 (Or.inr ⟨-1, by norm_num, rfl⟩),
   (branch_determinism _ _ _).2 (Or.inr (Or.inr ⟨1, by norm_num, rfl⟩))⟩

/-- C7. On a branch node with `tSplit = (splitVal - ray.org[splitDim]) / ray.dir[splitDim]`:
if `t0 >= tSplit`, the call is one call on the back node with the interval `[t0, t1]`,
whose returned value and ray state it passes on; otherwise, if `t1 <= tSplit`, it is one
call on the front node with `[t0, t1]`.  In both cases every event of the log other than
the entry into the branch node itself lies in the subtree of the child visited, so no
primitive of the other subtree is tested. -/
theorem one_sided_cases (Epsilon : Dbl) (prims : List IPrim) (dim : Int) (val : Dbl)
    (l r : ptr_bspnode_t) (ray : Ray) (t0 t1 o d : Dbl)
    (hbranch : isLeaf l r = false)
    (ho : ray.org.get dim = .ok o) (hd : ray.dir.get dim = .ok d) :
    (Dbl.ge t0 (Dbl.div (Dbl.sub val o) d) = true →
        intersect Epsilon (.node prims dim val l r) ray t0 t1 =
            (intersect Epsilon (BackNode d l r) ray t0 t1).map
              (fun b => { ret := b.ret, ray := b.ray,
                          log := Event.call [] t0 t1 ::
                            b.log.map (Event.under (BackNode d Side.left Side.right)) }) ∧
          ∀ out, intersect Epsilon (.node prims dim val l r) ray t0 t1 = .ok out →
            ∀ e ∈ out.log, e = Event.call [] t0 t1 ∨
              e.path.head? = some (BackNode d Side.left Side.right)) ∧
      (Dbl.ge t0 (Dbl.div (Dbl.sub val o) d) = false →
        Dbl.le t1 (Dbl.div (Dbl.sub val o) d) = true →
        intersect Epsilon (.node prims dim val l r) ray t0 t1 =
            (intersect Epsilon (FrontNode d l r) ray t0 t1).map
              (fun f => { ret := f.ret, ray := f.ray,
                          log := Event.call [] t0 t1 ::
                            f.log.map (Event.under (FrontNode d Side.left Side.right)) }) ∧
          ∀ out, intersect Epsilon (.node prims dim val l r) ray t0 t1 = .ok out →
            ∀ e ∈ out.log, e = Event.call [] t0 t1 ∨
              e.path.head? = some (FrontNode d Side.left Side.right)) := by
  have hpath : ∀ (s : Side) (e : Event), (Event.under s e).path.head? = some s := by
    intro s e; cases e <;> rfl
  constructor
  · intro hge
    have key := intersect_branch Epsilon prims dim val l r hbranch ray t0 t1 o d ho hd
    rw [if_pos hge] at key
    refine ⟨key, fun out hout e he => ?_⟩
    rw [key] at hout
    cases hb : intersect Epsilon (BackNode d l r) ray t0 t1 with
    | error x => rw [hb] at hout; simp [Except.map] at hout
    | ok b =>
      rw [hb] at hout
      simp only [Except.map, Except.ok.injEq] at hout
      subst hout
      simp only [Outcome.viaChild, List.mem_cons, List.mem_map] at he
      rcases he with rfl | ⟨e', _, rfl⟩
      · exact Or.inl rfl
      · exact Or.inr (hpath _ _)
  · intro hge hle
    have key := intersect_branch Epsilon prims dim val l r hbranch ray t0 t1 o d ho hd
    rw [if_neg (by simp [hge]), if_pos hle] at key
    refine ⟨key, fun out hout e he => ?_⟩
    rw [key] at hout
    cases hb : intersect Epsilon (FrontNode d l r) ray t0 t1 with
    | error x => rw [hb] at hout; simp [Except.map] at hout
    | ok b =>
      rw [hb] at hout
      simp only [Except.map, Except.ok.injEq] at hout
      subst hout
      simp only [Outcome.viaChild, List.mem_cons, List.mem_map] at he
      rcases he with rfl | ⟨e', _, rfl⟩
      · exact Or.inl rfl
      · exact Or.inr (hpath _ _)

/-- C7, at the scenario tree and its forward ray with the interval `[6, 9]`: the split
distance is 5, `6 >= 5`, and the call is the call on the right leaf (the back node). -/
theorem one_sided_cases_witness :
    Dbl.ge (Dbl.fin 6) (Dbl.div (Dbl.sub (Dbl.fin 5) (Dbl.fin 0)) (Dbl.fin 1)) = true ∧
      intersect (Dbl.fin (1 / 1000)) scenarioTree forwardRay (Dbl.fin 6) (Dbl.fin 9) =
        (intersect (Dbl.fin (1 / 1000)) (CBSPNode.leaf [planeX (Dbl.fin 8)]) forwardRay
            (Dbl.fin 6) (Dbl.fin 9)).map
          (fun b => { ret := b.ret, ray := b.ray,
                      log := Event.call [] (Dbl.fin 6) (Dbl.fin 9) ::
                        b.log.map (Event.under Side.right) }) := by
  have hge : Dbl.ge (Dbl.fin 6) (Dbl.div (Dbl.sub (Dbl.fin 5) (Dbl.fin 0)) (Dbl.fin 1))
      = true := by
    simp [Dbl.ge, Dbl.le, Dbl.div, Dbl.sub, Dbl.add, Dbl.neg, Dbl.isZero]; norm_num
  have h := ((one_sided_cases (Dbl.fin (1 / 1000)) [] 0 (Dbl.fin 5)
    (CBSPNode.leaf [planeX (Dbl.fin 3)]) (CBSPNode.leaf [planeX (Dbl.fin 8)]) forwardRay
    (Dbl.fin 6) (Dbl.fin 9) (Dbl.fin 0) (Dbl.fin 1) rfl rfl rfl).1 hge).1
  have hb : ∀ {α : Type} (a b : α), BackNode (Dbl.fin 1) a b = b := by
    intro α a b; simp [BackNode, Dbl.lt]
  rw [hb, hb] at h
  exact ⟨hge, h⟩

/-- C8. On a branch node with `t0 < tSplit < t1`, `intersect` first calls the front node
with `[t0, tSplit]`.  If that call returns true, `intersect` returns true with the ray
state the front call left, and no event of the log lies in the back subtree.  If it
returns false, `intersect` calls the back node with `[tSplit, t1]` on the ray state the
front call left and returns what that call returns.  (A fault of the front call is a
fault of the whole call.) -/
theorem straddling_case (Epsilon : Dbl) (prims : List IPrim) (dim : Int) (val : Dbl)
    (l r : ptr_bspnode_t) (ray : Ray) (t0 t1 o d : Dbl)
    (hbranch : isLeaf l r = false)
    (ho : ray.org.get dim = .ok o) (hd : ray.dir.get dim = .ok d)
    (h0 : Dbl.lt t0 (Dbl.div (Dbl.sub val o) d) = true)
    (h1 : Dbl.lt (Dbl.div (Dbl.sub val o) d) t1 = true) :
    (∀ e, intersect Epsilon (FrontNode d l r) ray t0 (Dbl.div (Dbl.sub val o) d) = .error e →
        intersect Epsilon (.node prims dim val l r) ray t0 t1 = .error e) ∧
      ∀ f, intersect Epsilon (FrontNode d l r) ray t0 (Dbl.div (Dbl.sub val o) d) = .ok f →
        (f.ret = true →
          intersect Epsilon (.node prims dim val l r) ray t0 t1 =
              .ok { ret := true, ray := f.ray,
                    log := Event.call [] t0 t1 ::
                      f.log.map (Event.under (FrontNode d Side.left Side.right)) } ∧
            ∀ e ∈ Event.call [] t0 t1 ::
                f.log.map (Event.under (FrontNode d Side.left Side.right)),
              e.path.head? ≠ some (BackNode d Side.left Side.right)) ∧
        (f.ret = false →
          intersect Epsilon (.node prims dim val l r) ray t0 t1 =
            (intersect Epsilon (BackNode d l r) f.ray (Dbl.div (Dbl.sub val o) d) t1).map
              (fun b => { ret := b.ret, ray := b.ray,
                          log := Event.call [] t0 t1 ::
                            (f.log.map (Event.under (FrontNode d Side.left Side.right)) ++
                              b.log.map (Event.under (BackNode d Side.left Side.right))) })) := by
  have key := intersect_branch Epsilon prims dim val l r hbranch ray t0 t1 o d ho hd
  have hge : Dbl.ge t0 (Dbl.div (Dbl.sub val o) d) = false := Dbl.le_eq_false_of_lt h0
  have hle : Dbl.le t1 (Dbl.div (Dbl.sub val o) d) = false := Dbl.le_eq_false_of_lt h1
  rw [if_neg (by simp [hge]), if_neg (by simp [hle])] at key
  refine ⟨fun e he => by rw [key, he], fun f hf => ⟨fun hret => ⟨?_, ?_⟩, fun hret => ?_⟩⟩
  · rw [key, hf]; simp [hret, Outcome.viaChild]
  · intro e he
    simp only [List.mem_cons, List.mem_map] at he
    rcases he with rfl | ⟨e', _, rfl⟩
    · simp [Event.path]
    · cases e' <;> simp [Event.under, Event.path, FrontNode, BackNode] <;> split <;> simp
  · rw [key, hf]; simp only [hret, Bool.false_eq_true, if_false]; rfl

/-! ## Evaluating the arithmetic and the scenario -/

namespace Dbl

theorem sub_fin (a b : ℚ) : sub (fin a) (fin b) = fin (a - b) := by
  by_cases hb : b = 0
  · simp [sub, neg, add, hb]
  · simp [sub, neg, add, hb, sub_eq_add_neg]

theorem add_fin (a b : ℚ) : add (fin a) (fin b) = fin (a + b) := rfl

theorem div_fin {a b : ℚ} (ha : a ≠ 0) (hb : b ≠ 0) : div (fin a) (fin b) = fin (a / b) := by
  simp [div, isZero, ha, hb]

theorem lt_fin (a b : ℚ) : lt (fin a) (fin b) = decide (a < b) := rfl

theorem le_fin (a b : ℚ) : le (fin a) (fin b) = decide (a ≤ b) := rfl

theorem ge_fin (a b : ℚ) : ge (fin a) (fin b) = decide (b ≤ a) := rfl

theorem lt_fin_pinf (a : ℚ) : lt (fin a) pinf = true := rfl

end Dbl

theorem testAgainst_nil (ray : Ray) : testAgainst [] ray = ray := rfl

theorem testAgainst_cons (p : IPrim) (ps : List IPrim) (ray : Ray) :
    testAgainst (p :: ps) ray = testAgainst ps (p.intersect ray) := rfl

/-- A call on a node built by the leaf constructor. -/
theorem intersect_mk_leaf (Epsilon : Dbl) (prims : List IPrim) (ray : Ray) (t0 t1 : Dbl) :
    intersect Epsilon (CBSPNode.leaf prims) ray t0 t1 =
      .ok { ret := (testAgainst prims ray).hit &&
              Dbl.lt (testAgainst prims ray).t (Dbl.add t1 Epsilon),
            ray := testAgainst prims ray,
            log := Event.call [] t0 t1 :: (List.range prims.length).map (Event.test []) } :=
  intersect_leaf Epsilon prims 0 (Dbl.fin 0) .null .null rfl ray t0 t1

/-- The routine of the plane `x = c`, for a ray that crosses it ahead of its origin. -/
theorem planeX_intersect (c o d : ℚ) (ray : Ray) (ho : ray.org.x = Dbl.fin o)
    (hd : ray.dir.x = Dbl.fin d) (hd0 : d ≠ 0) (hpos : 0 < (c - o) / d) :
    (planeX (Dbl.fin c)).intersect ray =
      if Dbl.lt (Dbl.fin ((c - o) / d)) ray.t then
        { ray with t := Dbl.fin ((c - o) / d), hit := true }
      else ray := by
  have hco : c - o ≠ 0 := by
    intro h; rw [h] at hpos; simp at hpos
  simp [planeX, closerPrim, ho, hd, Dbl.sub_fin, Dbl.div_fin hco hd0, Dbl.lt_fin, hpos]

/-- The distance at which such a ray meets the plane `x = c`. -/
theorem hitDistance_planeX (c o d : ℚ) (ray : Ray) (ho : ray.org.x = Dbl.fin o)
    (hd : ray.dir.x = Dbl.fin d) (hd0 : d ≠ 0) (hpos : 0 < (c - o) / d) :
    hitDistance (planeX (Dbl.fin c)) ray = some (Dbl.fin ((c - o) / d)) := by
  have h := planeX_intersect c o d { ray with t := Dbl.pinf, hit := false } ho hd hd0 hpos
  simp only [Dbl.lt_fin_pinf, if_true] at h
  simp [hitDistance, h]

theorem FrontNode_nonneg {α : Type} (q : ℚ) (hq : 0 ≤ q) (a b : α) :
    FrontNode (Dbl.fin q) a b = a := by
  simp [FrontNode, Dbl.lt, hq]

theorem BackNode_nonneg {α : Type} (q : ℚ) (hq : 0 ≤ q) (a b : α) :
    BackNode (Dbl.fin q) a b = b := by
  simp [BackNode, Dbl.lt, hq]

theorem FrontNode_neg {α : Type} (q : ℚ) (hq : q < 0) (a b : α) :
    FrontNode (Dbl.fin q) a b = b := by
  simp [FrontNode, Dbl.lt, hq]

theorem BackNode_neg {α : Type} (q : ℚ) (hq : q < 0) (a b : α) :
    BackNode (Dbl.fin q) a b = a := by
  simp [BackNode, Dbl.lt, hq]

/-- The forward query of the scenario, for any tolerance that is not negative. -/
theorem scenario_forward (e : ℚ) (he : 0 ≤ e) :
    intersect (Dbl.fin e) scenarioTree forwardRay (Dbl.fin 0) (Dbl.fin 10) =
      .ok { ret := true, ray := { forwardRay with t := Dbl.fin 3, hit := true },
            log := [Event.call [] (Dbl.fin 0) (Dbl.fin 10),
                    Event.call [Side.left] (Dbl.fin 0) (Dbl.fin 5),
                    Event.test [Side.left] 0] } := by
  have h3 : (3 : ℚ) < 5 + e := by linarith
  have hp : (planeX (Dbl.fin 3)).intersect forwardRay
      = { forwardRay with t := Dbl.fin 3, hit := true } := by
    rw [planeX_intersect 3 0 1 forwardRay rfl rfl (by norm_num) (by norm_num)]
    norm_num [forwardRay, Dbl.lt_fin_pinf]
  have hs : Dbl.div (Dbl.sub (Dbl.fin 5) (Dbl.fin 0)) (Dbl.fin 1) = Dbl.fin 5 := by
    rw [Dbl.sub_fin, Dbl.div_fin (by norm_num) (by norm_num)]; norm_num
  have key := intersect_branch (Dbl.fin e) [] 0 (Dbl.fin 5) (CBSPNode.leaf [planeX (Dbl.fin 3)])
    (CBSPNode.leaf [planeX (Dbl.fin 8)]) rfl forwardRay (Dbl.fin 0) (Dbl.fin 10) (Dbl.fin 0)
    (Dbl.fin 1) rfl rfl
  rw [hs] at key
  simp only [FrontNode_nonneg 1 (by norm_num), intersect_mk_leaf, testAgainst_cons,
    testAgainst_nil, hp] at key
  refine Eq.trans key ?_
  norm_num [Dbl.ge_fin, Dbl.le_fin, Dbl.lt_fin, Dbl.add_fin, h3, Outcome.viaChild, Event.under]
  rfl

/-- The reversed query of the scenario, for any tolerance that is not negative. -/
theorem scenario_reversed (e : ℚ) (he : 0 ≤ e) :
    intersect (Dbl.fin e) scenarioTree reversedRay (Dbl.fin 0) (Dbl.fin 10) =
      .ok { ret := true, ray := { reversedRay with t := Dbl.fin 2, hit := true },
            log := [Event.call [] (Dbl.fin 0) (Dbl.fin 10),
                    Event.call [Side.right] (Dbl.fin 0) (Dbl.fin 5),
                    Event.test [Side.right] 0] } := by
  have h3 : (2 : ℚ) < 5 + e := by linarith
  have hp : (planeX (Dbl.fin 8)).intersect reversedRay
      = { reversedRay with t := Dbl.fin 2, hit := true } := by
    rw [planeX_intersect 8 10 (-1) reversedRay rfl rfl (by norm_num) (by norm_num)]
    norm_num [reversedRay, Dbl.lt_fin_pinf]
  have hs : Dbl.div (Dbl.sub (Dbl.fin 5) (Dbl.fin 10)) (Dbl.fin (-1)) = Dbl.fin 5 := by
    rw [Dbl.sub_fin, Dbl.div_fin (by norm_num) (by norm_num)]; norm_num
  have key := intersect_branch (Dbl.fin e) [] 0 (Dbl.fin 5) (CBSPNode.leaf [planeX (Dbl.fin 3)])
    (CBSPNode.leaf [planeX (Dbl.fin 8)]) rfl reversedRay (Dbl.fin 0) (Dbl.fin 10) (Dbl.fin 10)
    (Dbl.fin (-1)) rfl rfl
  rw [hs] at key
  simp only [FrontNode_neg (-1) (by norm_num), intersect_mk_leaf, testAgainst_cons,
    testAgainst_nil, hp] at key
  refine Eq.trans key ?_
  norm_num [Dbl.ge_fin, Dbl.le_fin, Dbl.lt_fin, Dbl.add_fin, h3, Outcome.viaChild, Event.under]
  rfl

/-- C8, at the scenario tree and its forward ray with the interval `[0, 10]`: the split
distance 5 lies inside the interval, the front call on the left leaf returns true, and so
does the whole call, with the ray state of the front call. -/
theorem straddling_case_witness :
    Dbl.lt (Dbl.fin 0) (Dbl.div (Dbl.sub (Dbl.fin 5) (Dbl.fin 0)) (Dbl.fin 1)) = true ∧
      Dbl.lt (Dbl.div (Dbl.sub (Dbl.fin 5) (Dbl.fin 0)) (Dbl.fin 1)) (Dbl.fin 10) = true ∧
      intersect (Dbl.fin (1 / 1000)) scenarioTree forwardRay (Dbl.fin 0) (Dbl.fin 10) =
        .ok { ret := true, ray := { forwardRay with t := Dbl.fin 3, hit := true },
              log := [Event.call [] (Dbl.fin 0) (Dbl.fin 10),
                      Event.call [Side.left] (Dbl.fin 0) (Dbl.fin 5),
                      Event.test [Side.left] 0] } := by
  have hs : Dbl.div (Dbl.sub (Dbl.fin 5) (Dbl.fin 0)) (Dbl.fin 1) = Dbl.fin 5 := by
    rw [Dbl.sub_fin, Dbl.div_fin (by norm_num) (by norm_num)]; norm_num
  have h0 : Dbl.lt (Dbl.fin 0) (Dbl.div (Dbl.sub (Dbl.fin 5) (Dbl.fin 0)) (Dbl.fin 1))
      = true := by rw [hs]; norm_num [Dbl.lt_fin]
  have h1 : Dbl.lt (Dbl.div (Dbl.sub (Dbl.fin 5) (Dbl.fin 0)) (Dbl.fin 1)) (Dbl.fin 10)
      = true := by rw [hs]; norm_num [Dbl.lt_fin]
  have hp : (planeX (Dbl.fin 3)).intersect forwardRay
      = { forwardRay with t := Dbl.fin 3, hit := true } := by
    rw [planeX_intersect 3 0 1 forwardRay rfl rfl (by norm_num) (by norm_num)]
    norm_num [forwardRay, Dbl.lt_fin_pinf]
  have hf : intersect (Dbl.fin (1 / 1000))
      (FrontNode (Dbl.fin 1) (CBSPNode.leaf [planeX (Dbl.fin 3)])
        (CBSPNode.leaf [planeX (Dbl.fin 8)])) forwardRay (Dbl.fin 0)
      (Dbl.div (Dbl.sub (Dbl.fin 5) (Dbl.fin 0)) (Dbl.fin 1)) =
      .ok { ret := true, ray := { forwardRay with t := Dbl.fin 3, hit := true },
            log := [Event.call [] (Dbl.fin 0) (Dbl.fin 5), Event.test [] 0] } := by
    rw [hs, FrontNode_nonneg 1 (by norm_num), intersect_mk_leaf]
    simp only [testAgainst_cons, testAgainst_nil, hp]
    norm_num [Dbl.lt_fin, Dbl.add_fin]
    rfl
  have h := (((straddling_case (Dbl.fin (1 / 1000)) [] 0 (Dbl.fin 5)
    (CBSPNode.leaf [planeX (Dbl.fin 3)]) (CBSPNode.leaf [planeX (Dbl.fin 8)]) forwardRay
    (Dbl.fin 0) (Dbl.fin 10) (Dbl.fin 0) (Dbl.fin 1) rfl rfl rfl h0 h1).2 _ hf).1 rfl).1
  rw [FrontNode_nonneg 1 (by norm_num)] at h
  exact ⟨h0, h1, h⟩

/-- C9. In the scenario (one branch node splitting axis `x` at 5, a primitive at `x = 3` in
the left leaf and one at `x = 8` in the right leaf), for every tolerance that is not
negative: the ray from `x = 0` in direction `+x`, which meets the primitives at `t = 3` and
`t = 8`, queried on `[0, 10]` returns true with `ray.t = 3` and the primitive of the right
leaf is never tested; the reversed ray from `x = 10` returns true with `ray.t` the
brute-force nearest hit distance, which is that of the primitive at `x = 8`. -/
theorem concrete_scenario (e : ℚ) (he : 0 ≤ e) :
    (hitDistance (planeX (Dbl.fin 3)) forwardRay = some (Dbl.fin 3) ∧
      hitDistance (planeX (Dbl.fin 8)) forwardRay = some (Dbl.fin 8)) ∧
    (∃ out, intersect (Dbl.fin e) scenarioTree forwardRay (Dbl.fin 0) (Dbl.fin 10) = .ok out ∧
      out.ret = true ∧ out.ray.t = Dbl.fin 3 ∧ ∀ i, Event.test [Side.right] i ∉ out.log) ∧
    (∃ out, intersect (Dbl.fin e) scenarioTree reversedRay (Dbl.fin 0) (Dbl.fin 10) = .ok out ∧
      out.ret = true ∧
      closestHit (leafPrims scenarioTree) reversedRay = some out.ray.t ∧
      IsMinHitDistance (leafPrims scenarioTree) reversedRay out.ray.t ∧
      hitDistance (planeX (Dbl.fin 8)) reversedRay = some out.ray.t) := by
  have d3 : hitDistance (planeX (Dbl.fin 3)) reversedRay = some (Dbl.fin 7) := by
    rw [hitDistance_planeX 3 10 (-1) reversedRay rfl rfl (by norm_num) (by norm_num)]
    norm_num
  have d8 : hitDistance (planeX (Dbl.fin 8)) reversedRay = some (Dbl.fin 2) := by
    rw [hitDistance_planeX 8 10 (-1) reversedRay rfl rfl (by norm_num) (by norm_num)]
    norm_num
  have hprims : leafPrims scenarioTree = [planeX (Dbl.fin 3), planeX (Dbl.fin 8)] := rfl
  refine ⟨⟨?_, ?_⟩, ⟨_, scenario_forward e he, rfl, rfl, ?_⟩,
    ⟨_, scenario_reversed e he, rfl, ?_, ?_, d8⟩⟩
  · rw [hitDistance_planeX 3 0 1 forwardRay rfl rfl (by norm_num) (by norm_num)]
    norm_num
  · rw [hitDistance_planeX 8 0 1 forwardRay rfl rfl (by norm_num) (by norm_num)]
    norm_num
  · intro i; simp
  · have h3 : (planeX (Dbl.fin 3)).intersect reversedRay
        = { reversedRay with t := Dbl.fin 7, hit := true } := by
      rw [planeX_intersect 3 10 (-1) reversedRay rfl rfl (by norm_num) (by norm_num)]
      norm_num [reversedRay, Dbl.lt_fin_pinf]
    have h8 : (planeX (Dbl.fin 8)).intersect { reversedRay with t := Dbl.fin 7, hit := true }
        = { reversedRay with t := Dbl.fin 2, hit := true } := by
      rw [planeX_intersect 8 10 (-1) _ rfl rfl (by norm_num) (by norm_num)]
      norm_num [reversedRay, Dbl.lt_fin]
    simp [closestHit, hprims, testAgainst_cons, testAgainst_nil, h3, h8]
  · rw [hprims]
    refine ⟨⟨_, by simp, d8⟩, ?_⟩
    intro p hp d hd
    simp only [List.mem_cons, List.mem_singleton, List.not_mem_nil, or_false] at hp
    rcases hp with rfl | rfl
    · rw [d3] at hd; cases hd; norm_num [Dbl.le_fin]
    · rw [d8] at hd; cases hd; norm_num [Dbl.le_fin]

/-- C9, with the tolerance `1/1000`. -/
theorem concrete_scenario_witness :
    (0 : ℚ) ≤ 1 / 1000 ∧
    ∃ out, intersect (Dbl.fin (1 / 1000)) scenarioTree forwardRay (Dbl.fin 0) (Dbl.fin 10)
        = .ok out ∧
      out.ret = true ∧ out.ray.t = Dbl.fin 3 ∧ ∀ i, Event.test [Side.right] i ∉ out.log :=
  ⟨by norm_num, (concrete_scenario (1 / 1000) (by norm_num)).2.1⟩

/-! ## Primitives that update only when strictly closer -/

theorem hitDistance_congr (p : IPrim) {r1 r2 : Ray} (ho : r1.org = r2.org)
    (hd : r1.dir = r2.dir) : hitDistance p r1 = hitDistance p r2 := by
  simp [hitDistance, ho, hd]

/-- What the routine of a primitive obeying the contract does to a ray: nothing, or it
records its hit distance, which is strictly closer. -/
theorem UpdatesOnlyIfCloser.step {p : IPrim} (hp : UpdatesOnlyIfCloser p) (ray : Ray) :
    (p.intersect ray = ray ∧ reportsHit p ray = false) ∨
      ∃ d, hitDistance p ray = some d ∧ Dbl.lt d ray.t = true ∧
        p.intersect ray = { ray with t := d, hit := true } := by
  have h := hp ray
  cases hd : hitDistance p ray with
  | none => left; rw [hd] at h; exact ⟨h, by simp [reportsHit, hd]⟩
  | some d =>
    rw [hd] at h
    by_cases hlt : Dbl.lt d ray.t = true
    · right; exact ⟨d, rfl, hlt, by simpa [hlt] using h⟩
    · left; exact ⟨by simpa [hlt] using h, by simpa [reportsHit, hd] using hlt⟩

theorem UpdatesOnlyIfCloser.geometry {p : IPrim} (hp : UpdatesOnlyIfCloser p) (ray : Ray) :
    (p.intersect ray).org = ray.org ∧ (p.intersect ray).dir = ray.dir := by
  rcases hp.step ray with ⟨h, _⟩ | ⟨d, _, _, h⟩ <;> rw [h] <;> exact ⟨rfl, rfl⟩

/-- A hit distance of a primitive obeying the contract is a number below infinity. -/
theorem UpdatesOnlyIfCloser.lt_pinf {p : IPrim} (hp : UpdatesOnlyIfCloser p) {ray : Ray}
    {d : Dbl} (hd : hitDistance p ray = some d) : Dbl.lt d Dbl.pinf = true := by
  have hd' : hitDistance p { ray with t := Dbl.pinf, hit := false } = some d := hd
  rcases hp.step { ray with t := Dbl.pinf, hit := false } with ⟨h, _⟩ | ⟨d', h1, h2, _⟩
  · simp [hitDistance, h] at hd
  · rw [hd'] at h1; cases h1; exact h2

theorem closerPrim_updatesOnlyIfCloser (dist : Vec3f → Vec3f → Option Dbl) :
    UpdatesOnlyIfCloser (closerPrim dist) := by
  intro ray
  cases hd : dist ray.org ray.dir with
  | none => simp [closerPrim, hitDistance, hd]
  | some d =>
    by_cases hinf : Dbl.lt d Dbl.pinf = true
    · simp [closerPrim, hitDistance, hd, hinf]
    · have hlt : Dbl.lt d ray.t = false := by
        cases h : Dbl.lt d ray.t with
        | false => rfl
        | true => exact absurd (Dbl.lt_pinf_of_lt h) hinf
      simp [closerPrim, hitDistance, hd, hinf, hlt]

theorem testAgainst_geometry {prims : List IPrim} (h : ∀ p ∈ prims, UpdatesOnlyIfCloser p)
    (ray : Ray) :
    (testAgainst prims ray).org = ray.org ∧ (testAgainst prims ray).dir = ray.dir := by
  induction prims generalizing ray with
  | nil => exact ⟨rfl, rfl⟩
  | cons p ps ih =>
    have hp := (h p (List.mem_cons_self _ _)).geometry ray
    have hps := ih (fun q hq => h q (List.mem_cons_of_mem _ hq)) (p.intersect ray)
    rw [testAgainst_cons]
    exact ⟨hps.1.trans hp.1, hps.2.trans hp.2⟩

/-- After the loop the ray is unchanged, or its flag is set and its distance is the hit
distance of one of the primitives. -/
theorem testAgainst_unchanged_or_hit {prims : List IPrim}
    (h : ∀ p ∈ prims, UpdatesOnlyIfCloser p) (ray : Ray) :
    testAgainst prims ray = ray ∨
      ((testAgainst prims ray).hit = true ∧
        ∃ p ∈ prims, hitDistance p ray = some (testAgainst prims ray).t) := by
  induction prims generalizing ray with
  | nil => exact Or.inl rfl
  | cons p ps ih =>
    have hp := h p (List.mem_cons_self _ _)
    have hgeo := hp.geometry ray
    rw [testAgainst_cons]
    rcases ih (fun q hq => h q (List.mem_cons_of_mem _ hq)) (p.intersect ray) with
      heq | ⟨hhit, q, hq, hqd⟩
    · rcases hp.step ray with ⟨h1, _⟩ | ⟨d, hd, _, h1⟩
      · left; rw [heq, h1]
      · right; rw [heq, h1]
        exact ⟨rfl, p, List.mem_cons_self _ _, hd⟩
    · right
      refine ⟨hhit, q, List.mem_cons_of_mem _ hq, ?_⟩
      rw [← hqd]; exact (hitDistance_congr q hgeo.1 hgeo.2).symm

/-- The loop never increases the recorded distance. -/
theorem testAgainst_t_mono {prims : List IPrim} (h : ∀ p ∈ prims, UpdatesOnlyIfCloser p)
    (ray : Ray) :
    (testAgainst prims ray).t = ray.t ∨ Dbl.lt (testAgainst prims ray).t ray.t = true := by
  induction prims generalizing ray with
  | nil => exact Or.inl rfl
  | cons p ps ih =>
    have hp := h p (List.mem_cons_self _ _)
    rw [testAgainst_cons]
    have hps := ih (fun q hq => h q (List.mem_cons_of_mem _ hq)) (p.intersect ray)
    rcases hp.step ray with ⟨h1, _⟩ | ⟨d, _, hlt, h1⟩
    · rw [h1] at hps ⊢; exact hps
    · rw [h1] at hps ⊢
      rcases hps with h2 | h2
      · right; rw [h2]; exact hlt
      · right; exact Dbl.lt_trans h2 hlt

/-- The loop never clears the flag. -/
theorem testAgainst_hit_mono {prims : List IPrim} (h : ∀ p ∈ prims, UpdatesOnlyIfCloser p)
    (ray : Ray) (hhit : ray.hit = true) : (testAgainst prims ray).hit = true := by
  rcases testAgainst_unchanged_or_hit h ray with h1 | ⟨h1, _⟩
  · rw [h1]; exact hhit
  · exact h1

/-- After the loop no primitive of the leaf is met strictly closer than the recorded
distance. -/
theorem testAgainst_minimal {prims : List IPrim} (h : ∀ p ∈ prims, UpdatesOnlyIfCloser p)
    (ray : Ray) :
    ∀ p ∈ prims, ∀ d, hitDistance p ray = some d →
      Dbl.lt d (testAgainst prims ray).t = false := by
  induction prims generalizing ray with
  | nil => intro p hp; simp at hp
  | cons q qs ih =>
    have hq := h q (List.mem_cons_self _ _)
    have hqs : ∀ p ∈ qs, UpdatesOnlyIfCloser p := fun p hp => h p (List.mem_cons_of_mem _ hp)
    have hgeo := hq.geometry ray
    intro p hp d hd
    rw [testAgainst_cons]
    rcases List.mem_cons.1 hp with rfl | hp'
    · -- the head: after its turn the distance is at most `d`, and it only decreases
      cases hlt : Dbl.lt d (testAgainst qs (p.intersect ray)).t with
      | false => rfl
      | true =>
        exfalso
        have hmono := testAgainst_t_mono hqs (p.intersect ray)
        have hlt1 : Dbl.lt d (p.intersect ray).t = true := by
          rcases hmono with h2 | h2
          · rw [← h2]; exact hlt
          · exact Dbl.lt_trans hlt h2
        rcases hq.step ray with ⟨h1, hrep⟩ | ⟨d', hd', _, h1⟩
        · rw [h1] at hlt1
          simp [reportsHit, hd, hlt1] at hrep
        · rw [hd] at hd'; cases hd'
          rw [h1] at hlt1
          simp [Dbl.lt_irrefl] at hlt1
    · exact ih hqs (q.intersect ray) p hp' d
        ((hitDistance_congr p hgeo.1 hgeo.2).trans hd)

/-- Testing the primitives of a leaf a second time changes nothing. -/
theorem testAgainst_idem {prims : List IPrim} (h : ∀ p ∈ prims, UpdatesOnlyIfCloser p)
    (ray : Ray) : testAgainst prims (testAgainst prims ray) = testAgainst prims ray := by
  have hmin := testAgainst_minimal h ray
  have hgeo := testAgainst_geometry h ray
  generalize testAgainst prims ray = r at hmin hgeo
  have key : ∀ (qs : List IPrim), (∀ p ∈ qs, p ∈ prims) → testAgainst qs r = r := by
    intro qs
    induction qs with
    | nil => intro _; rfl
    | cons q qs ih =>
      intro hsub
      have hq := hsub q (List.mem_cons_self _ _)
      rw [testAgainst_cons]
      rcases (h q hq).step r with ⟨h1, _⟩ | ⟨d, hd, hlt, _⟩
      · rw [h1]; exact ih (fun p hp => hsub p (List.mem_cons_of_mem _ hp))
      · exfalso
        have := hmin q hq d ((hitDistance_congr q hgeo.1 hgeo.2).symm.trans hd)
        rw [this] at hlt; cases hlt
  exact key prims (fun p hp => hp)

theorem reportsInTurn_nil (ray : Ray) : ¬ reportsInTurn [] ray := by
  rintro ⟨i, p, h, _⟩; simp at h

theorem reportsInTurn_cons (p : IPrim) (ps : List IPrim) (ray : Ray) :
    reportsInTurn (p :: ps) ray ↔
      reportsHit p ray = true ∨ reportsInTurn ps (p.intersect ray) := by
  constructor
  · rintro ⟨i, q, hq, hr⟩
    cases i with
    | zero =>
      simp only [List.get?_cons_zero, Option.some.injEq] at hq
      subst hq
      exact Or.inl hr
    | succ j => exact Or.inr ⟨j, q, by simpa using hq, by simpa [testAgainst_cons] using hr⟩
  · rintro (h | ⟨j, q, hq, hr⟩)
    · exact ⟨0, p, rfl, h⟩
    · exact ⟨j + 1, q, by simpa using hq, by simpa [testAgainst_cons] using hr⟩

/-- The flag after the loop: it was set before, or some primitive reported a hit in its
turn. -/
theorem testAgainst_hit_iff {prims : List IPrim} (h : ∀ p ∈ prims, UpdatesOnlyIfCloser p)
    (ray : Ray) :
    (testAgainst prims ray).hit = true ↔ ray.hit = true ∨ reportsInTurn prims ray := by
  induction prims generalizing ray with
  | nil => simp [testAgainst_nil, reportsInTurn_nil]
  | cons p ps ih =>
    have hp := h p (List.mem_cons_self _ _)
    rw [testAgainst_cons, ih (fun q hq => h q (List.mem_cons_of_mem _ hq)),
      reportsInTurn_cons]
    rcases hp.step ray with ⟨h1, hrep⟩ | ⟨d, hd, hlt, h1⟩
    · rw [h1]; simp [hrep]
    · have hrep : reportsHit p ray = true := by simp [reportsHit, hd, hlt]
      rw [h1]; simp [hrep]

/-! ## Leaf nodes whose primitives obey the contract -/

theorem planeX_obeys (c : Dbl) : UpdatesOnlyIfCloser (planeX c) :=
  closerPrim_updatesOnlyIfCloser _

theorem planeX_singleton_obeys (c : Dbl) : ∀ p ∈ [planeX c], UpdatesOnlyIfCloser p := by
  intro p hp
  simp only [List.mem_singleton] at hp
  subst hp
  exact planeX_obeys c

/-- C4, as stated, fails.  The right leaf of the scenario, entered with a hit at `t = 6`
already recorded on the ray and queried on `[5, 10]`, returns true, although its only
primitive (met at `t = 8`) reports no hit. -/
theorem leaf_true_without_report :
    (∀ p ∈ [planeX (Dbl.fin 8)], UpdatesOnlyIfCloser p) ∧
    ∃ out, intersect (Dbl.fin (1 / 1000)) (CBSPNode.leaf [planeX (Dbl.fin 8)]) carriedRay
          (Dbl.fin 5) (Dbl.fin 10) = .ok out ∧
      out.ret = true ∧ ¬ reportsInTurn [planeX (Dbl.fin 8)] carriedRay := by
  have hc : ∀ p ∈ [planeX (Dbl.fin 8)], UpdatesOnlyIfCloser p := planeX_singleton_obeys _
  have hp : (planeX (Dbl.fin 8)).intersect carriedRay = carriedRay := by
    rw [planeX_intersect 8 0 1 carriedRay rfl rfl (by norm_num) (by norm_num)]
    norm_num [carriedRay, Dbl.lt_fin]
  have hd : hitDistance (planeX (Dbl.fin 8)) carriedRay = some (Dbl.fin 8) := by
    rw [hitDistance_planeX 8 0 1 carriedRay rfl rfl (by norm_num) (by norm_num)]
    norm_num
  refine ⟨hc, _, intersect_mk_leaf _ _ _ _ _, ?_, ?_⟩
  · simp only [testAgainst_cons, testAgainst_nil, hp]
    norm_num [carriedRay, Dbl.lt_fin, Dbl.add_fin]
  · rw [reportsInTurn_cons]
    rintro (h | h)
    · simp only [reportsHit, hd] at h
      norm_num [carriedRay, Dbl.lt_fin] at h
    · exact reportsInTurn_nil _ h

/-- C4, amended.  For a leaf whose primitives obey the contract, `intersect` returns true
if and only if the ray entered with a hit already recorded or at least one primitive of
the leaf reports a hit in its turn, and the resulting `ray.t` is below `t1 + Epsilon`. -/
theorem leaf_return_iff (Epsilon : Dbl) (prims : List IPrim) (dim : Int) (val : Dbl)
    (ray : Ray) (t0 t1 : Dbl) (h : ∀ p ∈ prims, UpdatesOnlyIfCloser p) :
    ∃ out, intersect Epsilon (.node prims dim val .null .null) ray t0 t1 = .ok out ∧
      (out.ret = true ↔
        (ray.hit = true ∨ reportsInTurn prims ray) ∧
          Dbl.lt out.ray.t (Dbl.add t1 Epsilon) = true) := by
  refine ⟨_, intersect_leaf Epsilon prims dim val .null .null rfl ray t0 t1, ?_⟩
  simp only [Bool.and_eq_true]
  rw [testAgainst_hit_iff h]

/-- C4 amended, at the right leaf of the scenario entered with a hit recorded. -/
theorem leaf_return_iff_witness :
    (∀ p ∈ [planeX (Dbl.fin 8)], UpdatesOnlyIfCloser p) ∧
    ∃ out, intersect (Dbl.fin (1 / 1000)) (.node [planeX (Dbl.fin 8)] 0 (Dbl.fin 0) .null .null)
          carriedRay (Dbl.fin 5) (Dbl.fin 10) = .ok out ∧
      (out.ret = true ↔
        (carriedRay.hit = true ∨ reportsInTurn [planeX (Dbl.fin 8)] carriedRay) ∧
          Dbl.lt out.ray.t (Dbl.add (Dbl.fin 10) (Dbl.fin (1 / 1000))) = true) :=
  ⟨planeX_singleton_obeys _, leaf_return_iff _ _ _ _ _ _ _ (planeX_singleton_obeys _)⟩

/-- C5. For a leaf whose primitives update the ray only when strictly closer, `ray.t`
after the call is the minimum of the incoming `ray.t` and the hit distances of the
primitives of the leaf that the ray meets, whatever the call returns: it is one of these
values, none of them is strictly below it, and (the incoming `ray.t` being a number) it is
less than or equal to each of them. -/
theorem leaf_distance_is_minimum (Epsilon : Dbl) (prims : List IPrim) (dim : Int)
    (val : Dbl) (ray : Ray) (t0 t1 : Dbl) (h : ∀ p ∈ prims, UpdatesOnlyIfCloser p) :
    ∃ out, intersect Epsilon (.node prims dim val .null .null) ray t0 t1 = .ok out ∧
      out.ray.t ∈ ray.t :: prims.filterMap (fun p => hitDistance p ray) ∧
      (∀ x ∈ ray.t :: prims.filterMap (fun p => hitDistance p ray),
        Dbl.lt x out.ray.t = false) ∧
      (ray.t ≠ Dbl.nan →
        ∀ x ∈ ray.t :: prims.filterMap (fun p => hitDistance p ray),
          Dbl.le out.ray.t x = true) := by
  refine ⟨_, intersect_leaf Epsilon prims dim val .null .null rfl ray t0 t1, ?_⟩
  show (testAgainst prims ray).t ∈ _ ∧ (∀ x ∈ _, Dbl.lt x (testAgainst prims ray).t = false) ∧
    (ray.t ≠ Dbl.nan → ∀ x ∈ _, Dbl.le (testAgainst prims ray).t x = true)
  have hmem : (testAgainst prims ray).t ∈ ray.t :: prims.filterMap (fun p => hitDistance p ray) := by
    rcases testAgainst_unchanged_or_hit h ray with h1 | ⟨_, p, hp, hd⟩
    · rw [h1]; exact List.mem_cons_self _ _
    · exact List.mem_cons_of_mem _ (List.mem_filterMap.2 ⟨p, hp, hd⟩)
  have hmin : ∀ x ∈ ray.t :: prims.filterMap (fun p => hitDistance p ray),
      Dbl.lt x (testAgainst prims ray).t = false := by
    intro x hx
    rcases List.mem_cons.1 hx with rfl | hx
    · rcases testAgainst_t_mono h ray with h1 | h1
      · rw [h1]; exact Dbl.lt_irrefl _
      · exact Dbl.lt_eq_false_of_le (Dbl.le_of_lt h1)
    · obtain ⟨p, hp, hd⟩ := List.mem_filterMap.1 hx
      exact testAgainst_minimal h ray p hp x hd
  have hnum : ray.t ≠ Dbl.nan →
      ∀ x ∈ ray.t :: prims.filterMap (fun p => hitDistance p ray), x ≠ Dbl.nan := by
    intro hn x hx
    rcases List.mem_cons.1 hx with rfl | hx
    · exact hn
    · obtain ⟨p, hp, hd⟩ := List.mem_filterMap.1 hx
      exact Dbl.ne_nan_of_lt_left ((h p hp).lt_pinf hd)
  exact ⟨hmem, hmin, fun hn x hx =>
    Dbl.le_of_lt_eq_false (hnum hn x hx) (hnum hn _ hmem) (hmin x hx)⟩

/-- C5, at a leaf holding the two primitives of the scenario and its forward ray. -/
theorem leaf_distance_is_minimum_witness :
    (∀ p ∈ [planeX (Dbl.fin 8), planeX (Dbl.fin 3)], UpdatesOnlyIfCloser p) ∧
    ∃ out, intersect (Dbl.fin (1 / 1000))
          (.node [planeX (Dbl.fin 8), planeX (Dbl.fin 3)] 0 (Dbl.fin 0) .null .null)
          forwardRay (Dbl.fin 0) (Dbl.fin 10) = .ok out ∧
      out.ray.t ∈ forwardRay.t ::
        [planeX (Dbl.fin 8), planeX (Dbl.fin 3)].filterMap (fun p => hitDistance p forwardRay) ∧
      (∀ x ∈ forwardRay.t ::
          [planeX (Dbl.fin 8), planeX (Dbl.fin 3)].filterMap (fun p => hitDistance p forwardRay),
        Dbl.lt x out.ray.t = false) ∧
      (forwardRay.t ≠ Dbl.nan →
        ∀ x ∈ forwardRay.t ::
            [planeX (Dbl.fin 8), planeX (Dbl.fin 3)].filterMap
              (fun p => hitDistance p forwardRay),
          Dbl.le out.ray.t x = true) := by
  have hc : ∀ p ∈ [planeX (Dbl.fin 8), planeX (Dbl.fin 3)], UpdatesOnlyIfCloser p := by
    intro p hp
    simp only [List.mem_cons, List.mem_singleton, List.not_mem_nil, or_false] at hp
    rcases hp with rfl | rfl <;> exact closerPrim_updatesOnlyIfCloser _
  exact ⟨hc, leaf_distance_is_minimum _ _ _ _ _ _ _ hc⟩

/-- C10, as stated, fails.  The leaf holds the primitive at `x = 8`, whose hit at
`d = 8` is the only hit of the leaf, and the exit bounds 5 and 7 both exclude it; the
forward ray enters with a hit at `t = 1` recorded.  Both calls return true, because the
recorded distance 1 is below either bound. -/
theorem recorded_hit_true_twice :
    (∀ p ∈ [planeX (Dbl.fin 8)], UpdatesOnlyIfCloser p) ∧
    hitDistance (planeX (Dbl.fin 8)) enteredRay = some (Dbl.fin 8) ∧
    (∀ p ∈ [planeX (Dbl.fin 8)], ∀ d',
      hitDistance p enteredRay = some d' → d' = Dbl.fin 8) ∧
    Dbl.ge (Dbl.fin 8) (Dbl.add (Dbl.fin 5) (Dbl.fin (1 / 1000))) = true ∧
    Dbl.ge (Dbl.fin 8) (Dbl.add (Dbl.fin 7) (Dbl.fin (1 / 1000))) = true ∧
    ∃ first second,
      intersect (Dbl.fin (1 / 1000)) (.node [planeX (Dbl.fin 8)] 0 (Dbl.fin 0) .null .null)
          enteredRay (Dbl.fin 0) (Dbl.fin 5) = .ok first ∧
      intersect (Dbl.fin (1 / 1000)) (.node [planeX (Dbl.fin 8)] 0 (Dbl.fin 0) .null .null)
          first.ray (Dbl.fin 5) (Dbl.fin 7) = .ok second ∧
      first.ret = true ∧ second.ret = true := by
  have hd : hitDistance (planeX (Dbl.fin 8)) enteredRay = some (Dbl.fin 8) := by
    rw [hitDistance_planeX 8 0 1 enteredRay rfl rfl (by norm_num) (by norm_num)]
    norm_num
  have hp : (planeX (Dbl.fin 8)).intersect enteredRay = enteredRay := by
    rw [planeX_intersect 8 0 1 enteredRay rfl rfl (by norm_num) (by norm_num)]
    norm_num [enteredRay, Dbl.lt_fin]
  have htest : testAgainst [planeX (Dbl.fin 8)] enteredRay = enteredRay := by
    simp only [testAgainst_cons, testAgainst_nil, hp]
  refine ⟨planeX_singleton_obeys _, hd, ?_, by norm_num [Dbl.ge_fin, Dbl.add_fin],
    by norm_num [Dbl.ge_fin, Dbl.add_fin], _, _,
    intersect_leaf _ [planeX (Dbl.fin 8)] 0 (Dbl.fin 0) .null .null rfl enteredRay _ _,
    intersect_leaf _ [planeX (Dbl.fin 8)] 0 (Dbl.fin 0) .null .null rfl _ _ _, ?_, ?_⟩
  · intro p hp' d' hd'
    simp only [List.mem_singleton] at hp'
    subst hp'
    rw [hd] at hd'
    cases hd'; rfl
  · show ((testAgainst [planeX (Dbl.fin 8)] enteredRay).hit &&
      Dbl.lt (testAgainst [planeX (Dbl.fin 8)] enteredRay).t _) = true
    rw [htest]
    norm_num [enteredRay, Dbl.lt_fin, Dbl.add_fin]
  · show ((testAgainst [planeX (Dbl.fin 8)]
        (testAgainst [planeX (Dbl.fin 8)] enteredRay)).hit &&
      Dbl.lt (testAgainst [planeX (Dbl.fin 8)]
        (testAgainst [planeX (Dbl.fin 8)] enteredRay)).t _) = true
    rw [htest, htest]
    norm_num [enteredRay, Dbl.lt_fin, Dbl.add_fin]

/-- C10, amended.  For a leaf whose primitives obey the contract and whose only hit
distance is `d`, two exit bounds that both exclude it (`d >= t1 + Epsilon` and
`d >= t1' + Epsilon`), and a ray that enters with no hit recorded, or with a recorded hit
that both bounds exclude as well (`ray.t >= t1 + Epsilon` and `ray.t >= t1' + Epsilon`):
calling `intersect` on the leaf twice in succession on the same ray, once with each bound,
returns false both times, and the ray after the second call is the ray after the first
call. -/
theorem leaf_false_twice (Epsilon : Dbl) (prims : List IPrim) (dim : Int) (val : Dbl)
    (ray : Ray) (t0 t1 t0' t1' d : Dbl)
    (h : ∀ p ∈ prims, UpdatesOnlyIfCloser p)
    (hin : ray.hit = true → Dbl.ge ray.t (Dbl.add t1 Epsilon) = true ∧
      Dbl.ge ray.t (Dbl.add t1' Epsilon) = true)
    (honly : ∀ p ∈ prims, ∀ d', hitDistance p ray = some d' → d' = d)
    (hex : Dbl.ge d (Dbl.add t1 Epsilon) = true)
    (hex' : Dbl.ge d (Dbl.add t1' Epsilon) = true) :
    ∃ first second,
      intersect Epsilon (.node prims dim val .null .null) ray t0 t1 = .ok first ∧
      intersect Epsilon (.node prims dim val .null .null) first.ray t0' t1' = .ok second ∧
      first.ret = false ∧ second.ret = false ∧ second.ray = first.ray := by
  refine ⟨_, _, intersect_leaf Epsilon prims dim val .null .null rfl ray t0 t1,
    intersect_leaf Epsilon prims dim val .null .null rfl _ t0' t1', ?_, ?_, ?_⟩
  · show ((testAgainst prims ray).hit && Dbl.lt (testAgainst prims ray).t _) = false
    rcases testAgainst_unchanged_or_hit h ray with h1 | ⟨_, p, hp, hd⟩
    · rw [h1]
      cases hh : ray.hit with
      | false => rfl
      | true => rw [Dbl.lt_eq_false_of_le (hin hh).1]; rfl
    · rw [honly p hp _ hd, Dbl.lt_eq_false_of_le hex]; simp
  · show ((testAgainst prims (testAgainst prims ray)).hit &&
      Dbl.lt (testAgainst prims (testAgainst prims ray)).t _) = false
    rw [testAgainst_idem h]
    rcases testAgainst_unchanged_or_hit h ray with h1 | ⟨_, p, hp, hd⟩
    · rw [h1]
      cases hh : ray.hit with
      | false => rfl
      | true => rw [Dbl.lt_eq_false_of_le (hin hh).2]; rfl
    · rw [honly p hp _ hd, Dbl.lt_eq_false_of_le hex']; simp
  · exact testAgainst_idem h ray

/-- C10 amended, at the right leaf of the scenario and the forward ray entering with a
hit at `t = 9` recorded: the only hit of the leaf is at `d = 8`, and the exit bounds 5
and 7 exclude both distances. -/
theorem leaf_false_twice_witness :
    ∃ first second,
      intersect (Dbl.fin (1 / 1000)) (.node [planeX (Dbl.fin 8)] 0 (Dbl.fin 0) .null .null)
          { forwardRay with t := Dbl.fin 9, hit := true } (Dbl.fin 0) (Dbl.fin 5)
        = .ok first ∧
      intersect (Dbl.fin (1 / 1000)) (.node [planeX (Dbl.fin 8)] 0 (Dbl.fin 0) .null .null)
          first.ray (Dbl.fin 5) (Dbl.fin 7) = .ok second ∧
      first.ret = false ∧ second.ret = false ∧ second.ray = first.ray := by
  have hd : hitDistance (planeX (Dbl.fin 8)) { forwardRay with t := Dbl.fin 9, hit := true }
      = some (Dbl.fin 8) := by
    rw [hitDistance_planeX 8 0 1 _ rfl rfl (by norm_num) (by norm_num)]
    norm_num
  refine leaf_false_twice (Dbl.fin (1 / 1000)) [planeX (Dbl.fin 8)] 0 (Dbl.fin 0)
    { forwardRay with t := Dbl.fin 9, hit := true }
    (Dbl.fin 0) (Dbl.fin 5) (Dbl.fin 5) (Dbl.fin 7) (Dbl.fin 8)
    (planeX_singleton_obeys _) ?_ ?_ ?_ ?_
  · intro _
    show Dbl.ge (Dbl.fin 9) _ = true ∧ Dbl.ge (Dbl.fin 9) _ = true
    norm_num [Dbl.ge_fin, Dbl.add_fin]
  · intro p hp d' hd'
    simp only [List.mem_singleton] at hp
    subst hp
    rw [hd] at hd'
    cases hd'; rfl
  · norm_num [Dbl.ge_fin, Dbl.add_fin]
  · norm_num [Dbl.ge_fin, Dbl.add_fin]

/-! ## Traversal of a tree -/

theorem Vec3f.get_ok (v : Vec3f) {i : Int} (h0 : 0 ≤ i) (h3 : i < 3) :
    ∃ x, v.get i = .ok x := by
  have : i = 0 ∨ i = 1 ∨ i = 2 := by omega
  rcases this with rfl | rfl | rfl
  · exact ⟨v.x, rfl⟩
  · exact ⟨v.y, rfl⟩
  · exact ⟨v.z, rfl⟩

theorem FrontNode_pick {α : Type} (d : Dbl) (l r : α) :
    FrontNode d l r = (FrontNode d Side.left Side.right).pick l r := by
  unfold FrontNode; split <;> rfl

theorem BackNode_pick {α : Type} (d : Dbl) (l r : α) :
    BackNode d l r = (BackNode d Side.left Side.right).pick l r := by
  unfold BackNode; split <;> rfl

/-- A call on a branch node that returns has read both vector components. -/
theorem intersect_branch_reads (Epsilon : Dbl) (prims : List IPrim) (dim : Int) (val : Dbl)
    (l r : ptr_bspnode_t) (h : isLeaf l r = false) (ray : Ray) (t0 t1 : Dbl) (out : Outcome)
    (hok : intersect Epsilon (.node prims dim val l r) ray t0 t1 = .ok out) :
    ∃ o d, ray.org.get dim = .ok o ∧ ray.dir.get dim = .ok d := by
  rw [intersect] at hok
  simp only [h, Bool.false_eq_true, if_false] at hok
  cases ho : ray.org.get dim with
  | error e => rw [ho] at hok; simp at hok
  | ok o =>
    cases hd : ray.dir.get dim with
    | error e => rw [ho, hd] at hok; simp at hok
    | ok d => exact ⟨o, d, rfl, rfl⟩

/-- The ways in which a call on a branch node returns: through the back node alone,
through the front node alone, through a front call that reported a hit, or through a front
call that reported none followed by a back call. -/
theorem intersect_branch_cases (Epsilon : Dbl) (prims : List IPrim) (dim : Int) (val : Dbl)
    (l r : ptr_bspnode_t) (h : isLeaf l r = false) (ray : Ray) (t0 t1 : Dbl) (out : Outcome)
    (hok : intersect Epsilon (.node prims dim val l r) ray t0 t1 = .ok out) :
    ∃ o d, ray.org.get dim = .ok o ∧ ray.dir.get dim = .ok d ∧
      ((Dbl.ge t0 (Dbl.div (Dbl.sub val o) d) = true ∧
          ∃ b, intersect Epsilon (BackNode d l r) ray t0 t1 = .ok b ∧
            out = b.viaChild (BackNode d Side.left Side.right) t0 t1) ∨
        (Dbl.ge t0 (Dbl.div (Dbl.sub val o) d) = false ∧
          Dbl.le t1 (Dbl.div (Dbl.sub val o) d) = true ∧
          ∃ f, intersect Epsilon (FrontNode d l r) ray t0 t1 = .ok f ∧
            out = f.viaChild (FrontNode d Side.left Side.right) t0 t1) ∨
        (Dbl.ge t0 (Dbl.div (Dbl.sub val o) d) = false ∧
          Dbl.le t1 (Dbl.div (Dbl.sub val o) d) = false ∧
          ∃ f, intersect Epsilon (FrontNode d l r) ray t0 (Dbl.div (Dbl.sub val o) d) = .ok f ∧
            ((f.ret = true ∧
                out = { (f.viaChild (FrontNode d Side.left Side.right) t0 t1) with
                        ret := true }) ∨
              (f.ret = false ∧
                ∃ b, intersect Epsilon (BackNode d l r) f.ray
                      (Dbl.div (Dbl.sub val o) d) t1 = .ok b ∧
                  out = Outcome.viaBoth (FrontNode d Side.left Side.right)
                    (BackNode d Side.left Side.right) t0 t1 f b)))) := by
  obtain ⟨o, d, ho, hd⟩ := intersect_branch_reads Epsilon prims dim val l r h ray t0 t1 out hok
  refine ⟨o, d, ho, hd, ?_⟩
  rw [intersect_branch Epsilon prims dim val l r h ray t0 t1 o d ho hd] at hok
  by_cases hge : Dbl.ge t0 (Dbl.div (Dbl.sub val o) d) = true
  · left
    rw [if_pos hge] at hok
    cases hb : intersect Epsilon (BackNode d l r) ray t0 t1 with
    | error e => rw [hb] at hok; simp [Except.map] at hok
    | ok b =>
      rw [hb] at hok
      simp only [Except.map, Except.ok.injEq] at hok
      exact ⟨hge, b, rfl, hok.symm⟩
  · right
    rw [if_neg hge] at hok
    have hge' : Dbl.ge t0 (Dbl.div (Dbl.sub val o) d) = false := by simpa using hge
    by_cases hle : Dbl.le t1 (Dbl.div (Dbl.sub val o) d) = true
    · left
      rw [if_pos hle] at hok
      cases hf : intersect Epsilon (FrontNode d l r) ray t0 t1 with
      | error e => rw [hf] at hok; simp [Except.map] at hok
      | ok f =>
        rw [hf] at hok
        simp only [Except.map, Except.ok.injEq] at hok
        exact ⟨hge', hle, f, rfl, hok.symm⟩
    · right
      rw [if_neg hle] at hok
      have hle' : Dbl.le t1 (Dbl.div (Dbl.sub val o) d) = false := by simpa using hle
      cases hf : intersect Epsilon (FrontNode d l r) ray t0 (Dbl.div (Dbl.sub val o) d) with
      | error e => rw [hf] at hok; simp at hok
      | ok f =>
        rw [hf] at hok
        refine ⟨hge', hle', f, rfl, ?_⟩
        by_cases hr : f.ret = true
        · left
          simp only [hr, if_true, Except.ok.injEq] at hok
          exact ⟨hr, hok.symm⟩
        · right
          have hr' : f.ret = false := by simpa using hr
          simp only [hr', Bool.false_eq_true, if_false] at hok
          cases hb : intersect Epsilon (BackNode d l r) f.ray
              (Dbl.div (Dbl.sub val o) d) t1 with
          | error e => rw [hb] at hok; simp [Except.map] at hok
          | ok b =>
            rw [hb] at hok
            simp only [Except.map, Except.ok.injEq] at hok
            exact ⟨hr', b, rfl, hok.symm⟩

/-- On a tree that satisfies the leaf/branch invariant the traversal returns: no absent
child is dereferenced and no vector is indexed out of range. -/
theorem intersect_returns (Epsilon : Dbl) (n : ptr_bspnode_t) (hwf : wellFormed n = true)
    (ray : Ray) (t0 t1 : Dbl) : ∃ out, intersect Epsilon n ray t0 t1 = .ok out := by
  induction n generalizing ray t0 t1 with
  | null => simp [wellFormed] at hwf
  | node prims dim val l r ihl ihr =>
    by_cases hleaf : isLeaf l r = true
    · exact ⟨_, intersect_leaf Epsilon prims dim val l r hleaf ray t0 t1⟩
    · have hleaf' : isLeaf l r = false := by simpa using hleaf
      simp only [wellFormed, hleaf', Bool.false_or, Bool.and_eq_true, decide_eq_true_eq]
        at hwf
      obtain ⟨⟨⟨h0, h3⟩, hl⟩, hr⟩ := hwf
      obtain ⟨o, ho⟩ := Vec3f.get_ok ray.org h0 h3
      obtain ⟨d, hd⟩ := Vec3f.get_ok ray.dir h0 h3
      have hF : ∀ ray t0 t1, ∃ out, intersect Epsilon (FrontNode d l r) ray t0 t1 = .ok out := by
        unfold FrontNode; split
        · exact fun ray t0 t1 => ihr hr ray t0 t1
        · exact fun ray t0 t1 => ihl hl ray t0 t1
      have hB : ∀ ray t0 t1, ∃ out, intersect Epsilon (BackNode d l r) ray t0 t1 = .ok out := by
        unfold BackNode; split
        · exact fun ray t0 t1 => ihl hl ray t0 t1
        · exact fun ray t0 t1 => ihr hr ray t0 t1
      rw [intersect_branch Epsilon prims dim val l r hleaf' ray t0 t1 o d ho hd]
      split
      · obtain ⟨b, hb⟩ := hB ray t0 t1
        exact ⟨_, by rw [hb]; rfl⟩
      · split
        · obtain ⟨f, hf⟩ := hF ray t0 t1
          exact ⟨_, by rw [hf]; rfl⟩
        · obtain ⟨f, hf⟩ := hF ray t0 (Dbl.div (Dbl.sub val o) d)
          rw [hf]
          by_cases hr' : f.ret = true
          · exact ⟨_, by simp only [hr', if_true]; rfl⟩
          · obtain ⟨b, hb⟩ := hB f.ray (Dbl.div (Dbl.sub val o) d) t1
            exact ⟨_, by simp only [hr', if_false, hb]; rfl⟩

theorem filterMap_get?_range {α : Type} (l : List α) :
    (List.range l.length).filterMap l.get? = l := by
  induction l using List.reverseRecOn with
  | nil => rfl
  | append_singleton l a ih =>
    rw [List.length_append, List.length_singleton, List.range_succ, List.filterMap_append]
    have h1 : (List.range l.length).filterMap (l ++ [a]).get? =
        (List.range l.length).filterMap l.get? := by
      apply List.filterMap_congr
      intro i hi
      rw [List.mem_range] at hi
      simp [List.getElem?_append_left hi]
    rw [h1, ih]
    simp

theorem testAgainst_append (a b : List IPrim) (ray : Ray) :
    testAgainst (a ++ b) ray = testAgainst b (testAgainst a ray) := by
  simp [testAgainst, List.foldl_append]

theorem testedPrim_under (prims : List IPrim) (dim : Int) (val : Dbl) (l r : ptr_bspnode_t)
    (s : Side) (e : Event) :
    testedPrim (.node prims dim val l r) (Event.under s e) = testedPrim (s.pick l r) e := by
  cases e <;> cases s <;> rfl

theorem testedPrims_call (n : ptr_bspnode_t) (p : List Side) (t0 t1 : Dbl) (log : List Event) :
    testedPrims n (Event.call p t0 t1 :: log) = testedPrims n log := by
  simp [testedPrims, testedPrim]

theorem testedPrims_under (prims : List IPrim) (dim : Int) (val : Dbl) (l r : ptr_bspnode_t)
    (s : Side) (log : List Event) :
    testedPrims (.node prims dim val l r) (log.map (Event.under s)) =
      testedPrims (s.pick l r) log := by
  simp only [testedPrims, List.filterMap_map]
  apply List.filterMap_congr
  intro e _
  exact testedPrim_under prims dim val l r s e

theorem testedPrims_append (n : ptr_bspnode_t) (a b : List Event) :
    testedPrims n (a ++ b) = testedPrims n a ++ testedPrims n b := by
  simp [testedPrims]

/-- The primitives a call on a leaf tests are the primitives of the leaf, in list order. -/
theorem testedPrims_leaf (prims : List IPrim) (dim : Int) (val : Dbl) (l r : ptr_bspnode_t)
    (h : isLeaf l r = true) (t0 t1 : Dbl) :
    testedPrims (.node prims dim val l r)
        (Event.call [] t0 t1 :: (List.range prims.length).map (Event.test [])) = prims := by
  rw [testedPrims_call]
  simp only [testedPrims, List.filterMap_map]
  have : (testedPrim (.node prims dim val l r) ∘ Event.test []) = prims.get? := by
    funext i
    simp [testedPrim, primAt, h]
  rw [this, filterMap_get?_range]

/-- The ray a traversal leaves is the incoming ray with the routines of the primitives it
tested applied, in the order of the log. -/
theorem intersect_ray_eq (Epsilon : Dbl) (n : ptr_bspnode_t) (ray : Ray) (t0 t1 : Dbl)
    (out : Outcome) (hok : intersect Epsilon n ray t0 t1 = .ok out) :
    out.ray = testAgainst (testedPrims n out.log) ray := by
  induction n generalizing ray t0 t1 out with
  | null => simp [intersect] at hok
  | node prims dim val l r ihl ihr =>
    by_cases hleaf : isLeaf l r = true
    · rw [intersect_leaf Epsilon prims dim val l r hleaf] at hok
      cases hok
      simp only [testedPrims_leaf prims dim val l r hleaf]
    · have hleaf' : isLeaf l r = false := by simpa using hleaf
      obtain ⟨o, d, _, _, hcase⟩ :=
        intersect_branch_cases Epsilon prims dim val l r hleaf' ray t0 t1 out hok
      have hF : ∀ ray t0 t1 out, intersect Epsilon (FrontNode d l r) ray t0 t1 = .ok out →
          out.ray = testAgainst (testedPrims (FrontNode d l r) out.log) ray := by
        unfold FrontNode; split
        · exact ihr
        · exact ihl
      have hB : ∀ ray t0 t1 out, intersect Epsilon (BackNode d l r) ray t0 t1 = .ok out →
          out.ray = testAgainst (testedPrims (BackNode d l r) out.log) ray := by
        unfold BackNode; split
        · exact ihl
        · exact ihr
      rcases hcase with ⟨_, b, hb, rfl⟩ | ⟨_, _, f, hf, rfl⟩ |
        ⟨_, _, f, hf, ⟨_, rfl⟩ | ⟨_, b, hb, rfl⟩⟩
      · simp only [Outcome.viaChild, testedPrims_call, testedPrims_under, ← BackNode_pick]
        exact hB _ _ _ _ hb
      · simp only [Outcome.viaChild, testedPrims_call, testedPrims_under, ← FrontNode_pick]
        exact hF _ _ _ _ hf
      · simp only [Outcome.viaChild, testedPrims_call, testedPrims_under, ← FrontNode_pick]
        exact hF _ _ _ _ hf
      · simp only [Outcome.viaBoth, testedPrims_call, testedPrims_append, testedPrims_under,
          ← FrontNode_pick, ← BackNode_pick, testAgainst_append]
        rw [← hF _ _ _ _ hf]
        exact hB _ _ _ _ hb

theorem primAt_mem_leafPrims (n : ptr_bspnode_t) (path : List Side) (i : Nat) (p : IPrim)
    (h : primAt n path i = some p) : p ∈ leafPrims n := by
  induction n generalizing path with
  | null => simp [primAt] at h
  | node prims dim val l r ihl ihr =>
    cases path with
    | nil =>
      by_cases hleaf : isLeaf l r = true
      · simp only [primAt, hleaf, if_true] at h
        simp only [leafPrims, hleaf, if_true]
        exact List.get?_mem h
      · simp [primAt, hleaf] at h
    | cons s path =>
      have hnl : isLeaf l r = false := by
        cases l with
        | null =>
          cases r with
          | null => cases s <;> simp [primAt] at h
          | node _ _ _ _ _ => rfl
        | node _ _ _ _ _ => rfl
      simp only [leafPrims, hnl, Bool.false_eq_true, if_false, List.mem_append]
      cases s with
      | left => exact Or.inl (ihl path h)
      | right => exact Or.inr (ihr path h)

/-- Every primitive a traversal tests is stored in a leaf of the tree. -/
theorem testedPrims_subset (n : ptr_bspnode_t) (log : List Event) :
    ∀ p ∈ testedPrims n log, p ∈ leafPrims n := by
  intro p hp
  obtain ⟨e, _, he⟩ := List.mem_filterMap.1 hp
  cases e with
  | call _ _ _ => simp [testedPrim] at he
  | test path i => exact primAt_mem_leafPrims n path i p he

/-- A traversal that returns true leaves the hit flag set. -/
theorem intersect_ret_hit (Epsilon : Dbl) (n : ptr_bspnode_t) (ray : Ray) (t0 t1 : Dbl)
    (out : Outcome) (hok : intersect Epsilon n ray t0 t1 = .ok out) (hret : out.ret = true) :
    out.ray.hit = true := by
  induction n generalizing ray t0 t1 out with
  | null => simp [intersect] at hok
  | node prims dim val l r ihl ihr =>
    by_cases hleaf : isLeaf l r = true
    · rw [intersect_leaf Epsilon prims dim val l r hleaf] at hok
      cases hok
      simp only [Bool.and_eq_true] at hret
      exact hret.1
    · have hleaf' : isLeaf l r = false := by simpa using hleaf
      obtain ⟨o, d, _, _, hcase⟩ :=
        intersect_branch_cases Epsilon prims dim val l r hleaf' ray t0 t1 out hok
      have hF : ∀ ray t0 t1 out, intersect Epsilon (FrontNode d l r) ray t0 t1 = .ok out →
          out.ret = true → out.ray.hit = true := by
        unfold FrontNode; split
        · exact ihr
        · exact ihl
      have hB : ∀ ray t0 t1 out, intersect Epsilon (BackNode d l r) ray t0 t1 = .ok out →
          out.ret = true → out.ray.hit = true := by
        unfold BackNode; split
        · exact ihl
        · exact ihr
      rcases hcase with ⟨_, b, hb, rfl⟩ | ⟨_, _, f, hf, rfl⟩ |
        ⟨_, _, f, hf, ⟨hfr, rfl⟩ | ⟨_, b, hb, rfl⟩⟩
      · exact hB _ _ _ b hb hret
      · exact hF _ _ _ f hf hret
      · exact hF _ _ _ f hf hfr
      · exact hB _ _ _ b hb hret

/-- A traversal of a tree whose primitives obey the contract leaves the ray's origin and
direction as they were. -/
theorem intersect_geometry (Epsilon : Dbl) (n : ptr_bspnode_t) (ray : Ray) (t0 t1 : Dbl)
    (out : Outcome) (hc : ∀ p ∈ leafPrims n, UpdatesOnlyIfCloser p)
    (hok : intersect Epsilon n ray t0 t1 = .ok out) :
    out.ray.org = ray.org ∧ out.ray.dir = ray.dir := by
  rw [intersect_ray_eq Epsilon n ray t0 t1 out hok]
  exact testAgainst_geometry (fun p hp => hc p (testedPrims_subset n out.log p hp)) ray

theorem SplitsDefined_congr {r1 r2 : Ray} (ho : r1.org = r2.org) (hd : r1.dir = r2.dir)
    (n : ptr_bspnode_t) (h : SplitsDefined r1 n) : SplitsDefined r2 n := by
  induction n with
  | null => trivial
  | node prims dim val l r ihl ihr =>
    obtain ⟨h1, h2, h3⟩ := h
    refine ⟨?_, ihl h2, ihr h3⟩
    rw [← ho, ← hd]
    exact h1

theorem leafPrims_front (prims : List IPrim) (dim : Int) (val : Dbl) (l r : ptr_bspnode_t)
    (h : isLeaf l r = false) (d : Dbl) :
    ∀ p ∈ leafPrims (FrontNode d l r), p ∈ leafPrims (.node prims dim val l r) := by
  intro p hp
  simp only [leafPrims, h, Bool.false_eq_true, if_false, List.mem_append]
  unfold FrontNode at hp
  split at hp
  · exact Or.inr hp
  · exact Or.inl hp

theorem leafPrims_back (prims : List IPrim) (dim : Int) (val : Dbl) (l r : ptr_bspnode_t)
    (h : isLeaf l r = false) (d : Dbl) :
    ∀ p ∈ leafPrims (BackNode d l r), p ∈ leafPrims (.node prims dim val l r) := by
  intro p hp
  simp only [leafPrims, h, Bool.false_eq_true, if_false, List.mem_append]
  unfold BackNode at hp
  split at hp
  · exact Or.inl hp
  · exact Or.inr hp

theorem SplitsDefined_front {ray : Ray} {prims : List IPrim} {dim : Int} {val : Dbl}
    {l r : ptr_bspnode_t} (h : SplitsDefined ray (.node prims dim val l r)) (d : Dbl) :
    SplitsDefined ray (FrontNode d l r) := by
  unfold FrontNode; split
  · exact h.2.2
  · exact h.2.1

theorem SplitsDefined_back {ray : Ray} {prims : List IPrim} {dim : Int} {val : Dbl}
    {l r : ptr_bspnode_t} (h : SplitsDefined ray (.node prims dim val l r)) (d : Dbl) :
    SplitsDefined ray (BackNode d l r) := by
  unfold BackNode; split
  · exact h.2.1
  · exact h.2.2

/-- The value a traversal returns is the leaf test on the ray it leaves, taken with the
exit distance of the outermost call: `ray.hit && ray.t < t1 + Epsilon`. -/
theorem intersect_ret_eq (Epsilon : Dbl) (n : ptr_bspnode_t) (ray : Ray) (t0 t1 : Dbl)
    (out : Outcome) (hc : ∀ p ∈ leafPrims n, UpdatesOnlyIfCloser p)
    (hs : SplitsDefined ray n) (ht1 : t1 ≠ Dbl.nan)
    (hok : intersect Epsilon n ray t0 t1 = .ok out) :
    out.ret = (out.ray.hit && Dbl.lt out.ray.t (Dbl.add t1 Epsilon)) := by
  induction n generalizing ray t0 t1 out with
  | null => simp [intersect] at hok
  | node prims dim val l r ihl ihr =>
    by_cases hleaf : isLeaf l r = true
    · rw [intersect_leaf Epsilon prims dim val l r hleaf] at hok
      cases hok
      rfl
    · have hleaf' : isLeaf l r = false := by simpa using hleaf
      obtain ⟨o, d, ho, hd, hcase⟩ :=
        intersect_branch_cases Epsilon prims dim val l r hleaf' ray t0 t1 out hok
      have hsplit : Dbl.div (Dbl.sub val o) d ≠ Dbl.nan := hs.1 hleaf' o d ho hd
      have hcF := fun p hp => hc p (leafPrims_front prims dim val l r hleaf' d p hp)
      have hcB := fun p hp => hc p (leafPrims_back prims dim val l r hleaf' d p hp)
      have hF : ∀ ray t0 t1 out, SplitsDefined ray (FrontNode d l r) → t1 ≠ Dbl.nan →
          intersect Epsilon (FrontNode d l r) ray t0 t1 = .ok out →
          out.ret = (out.ray.hit && Dbl.lt out.ray.t (Dbl.add t1 Epsilon)) := by
        revert hcF; unfold FrontNode; split
        · exact fun hcF ray t0 t1 out => ihr ray t0 t1 out hcF
        · exact fun hcF ray t0 t1 out => ihl ray t0 t1 out hcF
      have hB : ∀ ray t0 t1 out, SplitsDefined ray (BackNode d l r) → t1 ≠ Dbl.nan →
          intersect Epsilon (BackNode d l r) ray t0 t1 = .ok out →
          out.ret = (out.ray.hit && Dbl.lt out.ray.t (Dbl.add t1 Epsilon)) := by
        revert hcB; unfold BackNode; split
        · exact fun hcB ray t0 t1 out => ihl ray t0 t1 out hcB
        · exact fun hcB ray t0 t1 out => ihr ray t0 t1 out hcB
      rcases hcase with ⟨_, b, hb, rfl⟩ | ⟨_, _, f, hf, rfl⟩ |
        ⟨_, hle, f, hf, ⟨hfr, rfl⟩ | ⟨_, b, hb, rfl⟩⟩
      · exact hB _ _ _ b (SplitsDefined_back hs d) ht1 hb
      · exact hF _ _ _ f (SplitsDefined_front hs d) ht1 hf
      · have h1 := hF _ _ _ f (SplitsDefined_front hs d) hsplit hf
        rw [hfr] at h1
        have h2 : f.ray.hit = true ∧
            Dbl.lt f.ray.t (Dbl.add (Dbl.div (Dbl.sub val o) d) Epsilon) = true := by
          simpa using h1.symm
        have h3 := Dbl.lt_add_mono h2.2 (Dbl.lt_of_le_eq_false ht1 hsplit hle)
        show true = (f.ray.hit && Dbl.lt f.ray.t (Dbl.add t1 Epsilon))
        rw [h2.1, h3]; rfl
      · have hgeo := intersect_geometry Epsilon _ ray _ _ f hcF hf
        exact hB _ _ _ b
          (SplitsDefined_congr hgeo.1.symm hgeo.2.symm _ (SplitsDefined_back hs d)) ht1 hb

/-! ## The traversal against brute force -/

theorem scenarioTree_obeys : ∀ p ∈ leafPrims scenarioTree, UpdatesOnlyIfCloser p := by
  intro p hp
  have h : leafPrims scenarioTree = [planeX (Dbl.fin 3), planeX (Dbl.fin 8)] := rfl
  rw [h] at hp
  simp only [List.mem_cons, List.mem_singleton, List.not_mem_nil, or_false] at hp
  rcases hp with rfl | rfl <;> exact planeX_obeys _

theorem scenarioTree_splitsDefined : SplitsDefined forwardRay scenarioTree := by
  have hleaf : ∀ ps : List IPrim, SplitsDefined forwardRay (CBSPNode.leaf ps) :=
    fun ps => ⟨fun h => Bool.noConfusion h, trivial, trivial⟩
  refine ⟨fun _ o d ho hd => ?_, hleaf _, hleaf _⟩
  have ho' : o = Dbl.fin 0 := by
    have : (Except.ok (Dbl.fin 0) : Except Fault Dbl) = .ok o := ho
    cases this; rfl
  have hd' : d = Dbl.fin 1 := by
    have : (Except.ok (Dbl.fin 1) : Except Fault Dbl) = .ok d := hd
    cases this; rfl
  rw [ho', hd', Dbl.sub_fin, Dbl.div_fin (by norm_num) (by norm_num)]
  simp

/-- For a tree that satisfies the leaf/branch invariant and whose primitives obey the
contract, and a ray for which the split distances are numbers: the call on the root
returns, and it returns true if and only if brute force over the primitives that the
traversal tested yields a closest hit distance below `t1 + Epsilon`. -/
theorem intersect_iff_closest_tested (Epsilon : Dbl) (n : ptr_bspnode_t) (ray : Ray)
    (t0 t1 : Dbl) (hwf : wellFormed n = true)
    (hc : ∀ p ∈ leafPrims n, UpdatesOnlyIfCloser p) (hs : SplitsDefined ray n)
    (ht : Dbl.lt t0 t1 = true) :
    ∃ out, intersect Epsilon n ray t0 t1 = .ok out ∧
      (∀ p ∈ testedPrims n out.log, p ∈ leafPrims n) ∧
      (out.ret = true ↔
        ∃ d, closestHit (testedPrims n out.log) ray = some d ∧
          Dbl.lt d (Dbl.add t1 Epsilon) = true) := by
  obtain ⟨out, hok⟩ := intersect_returns Epsilon n hwf ray t0 t1
  refine ⟨out, hok, testedPrims_subset n out.log, ?_⟩
  rw [intersect_ret_eq Epsilon n ray t0 t1 out hc hs (Dbl.ne_nan_of_lt_right ht) hok]
  simp only [closestHit, ← intersect_ray_eq Epsilon n ray t0 t1 out hok, Bool.and_eq_true]
  constructor
  · rintro ⟨h1, h2⟩
    exact ⟨out.ray.t, by simp [h1], h2⟩
  · rintro ⟨d, h1, h2⟩
    by_cases hh : out.ray.hit = true
    · simp only [hh, if_true, Option.some.injEq] at h1
      subst h1
      exact ⟨hh, h2⟩
    · simp [hh] at h1

theorem hitAt_intersect (d : Dbl) (ray : Ray) :
    (hitAt d).intersect ray =
      if Dbl.lt d ray.t then { ray with t := d, hit := true } else ray := rfl

/-- For a ray that enters with no hit recorded, the distance left by a call that returns
true is the minimum hit distance over the primitives that the traversal tested. -/
theorem final_t_is_min_over_tested (Epsilon : Dbl) (n : ptr_bspnode_t) (ray : Ray)
    (t0 t1 : Dbl) (hwf : wellFormed n = true)
    (hc : ∀ p ∈ leafPrims n, UpdatesOnlyIfCloser p) (hfresh : ray.hit = false) :
    ∃ out, intersect Epsilon n ray t0 t1 = .ok out ∧
      (∀ p ∈ testedPrims n out.log, p ∈ leafPrims n) ∧
      (out.ret = true → IsMinHitDistance (testedPrims n out.log) ray out.ray.t) := by
  obtain ⟨out, hok⟩ := intersect_returns Epsilon n hwf ray t0 t1
  refine ⟨out, hok, testedPrims_subset n out.log, fun hret => ?_⟩
  have hhit := intersect_ret_hit Epsilon n ray t0 t1 out hok hret
  have hct : ∀ p ∈ testedPrims n out.log, UpdatesOnlyIfCloser p :=
    fun p hp => hc p (testedPrims_subset n out.log p hp)
  have hray := intersect_ray_eq Epsilon n ray t0 t1 out hok
  have hmin := testAgainst_minimal hct ray
  rw [← hray] at hmin
  rcases testAgainst_unchanged_or_hit hct ray with h1 | ⟨_, p, hp, hd⟩
  · rw [← hray] at h1
    rw [h1, hfresh] at hhit
    cases hhit
  · rw [← hray] at hd
    refine ⟨⟨p, hp, hd⟩, fun q hq d hqd => ?_⟩
    exact Dbl.le_of_lt_eq_false (Dbl.ne_nan_of_lt_left ((hct q hq).lt_pinf hqd))
      (Dbl.ne_nan_of_lt_left ((hct p hp).lt_pinf hd)) (hmin q hq d hqd)

/-! ## Termination: the shape of the log -/

theorem Event.path_under (s : Side) (e : Event) : (Event.under s e).path = s :: e.path := by
  cases e <;> rfl

theorem Event.key_under (s : Side) (e : Event) :
    (Event.under s e).key = (s :: e.key.1, e.key.2) := by
  cases e <;> rfl

theorem depth_front_le (d : Dbl) (l r : ptr_bspnode_t) :
    depth (FrontNode d l r) ≤ max (depth l) (depth r) := by
  unfold FrontNode; split
  · exact le_max_right _ _
  · exact le_max_left _ _

theorem depth_back_le (d : Dbl) (l r : ptr_bspnode_t) :
    depth (BackNode d l r) ≤ max (depth l) (depth r) := by
  unfold BackNode; split
  · exact le_max_left _ _
  · exact le_max_right _ _

theorem front_ne_back (d : Dbl) :
    FrontNode d Side.left Side.right ≠ BackNode d Side.left Side.right := by
  unfold FrontNode BackNode; split <;> simp

/-- The keys of a child's log, seen from the parent, are those of the child with the side
put in front of the path; they stay distinct. -/
theorem keys_under_nodup (s : Side) (log : List Event) (h : (log.map Event.key).Nodup) :
    ((log.map (Event.under s)).map Event.key).Nodup := by
  have : (log.map (Event.under s)).map Event.key =
      (log.map Event.key).map (fun k => (s :: k.1, k.2)) := by
    simp only [List.map_map]
    apply List.map_congr_left
    intro e _
    exact Event.key_under s e
  rw [this]
  apply List.Nodup.map _ h
  rintro ⟨p1, i1⟩ ⟨p2, i2⟩ heq
  simp only [Prod.mk.injEq, List.cons.injEq, true_and] at heq
  exact Prod.ext heq.1 heq.2

theorem key_call_not_mem_under (s : Side) (t0 t1 : Dbl) (log : List Event) :
    (Event.call [] t0 t1).key ∉ (log.map (Event.under s)).map Event.key := by
  intro h
  simp only [List.map_map, List.mem_map, Function.comp] at h
  obtain ⟨e, _, he⟩ := h
  rw [Event.key_under] at he
  simp [Event.key, Event.path] at he

theorem primAt_pick (prims : List IPrim) (dim : Int) (val : Dbl) (l r : ptr_bspnode_t)
    (s : Side) (path : List Side) (i : Nat) :
    primAt (.node prims dim val l r) (s :: path) i = primAt (s.pick l r) path i := by
  cases s <;> rfl

/-- The log of a traversal that returns: every event lies at a path shorter than the depth
of the tree, no two events have the same key, and every test is a test of a primitive
stored at that position of a leaf. -/
theorem intersect_log_shape (Epsilon : Dbl) (n : ptr_bspnode_t) (ray : Ray) (t0 t1 : Dbl)
    (out : Outcome) (hok : intersect Epsilon n ray t0 t1 = .ok out) :
    (∀ e ∈ out.log, e.path.length < depth n) ∧ (out.log.map Event.key).Nodup ∧
      ∀ path i, Event.test path i ∈ out.log → (primAt n path i).isSome = true := by
  induction n generalizing ray t0 t1 out with
  | null => simp [intersect] at hok
  | node prims dim val l r ihl ihr =>
    by_cases hleaf : isLeaf l r = true
    · rw [intersect_leaf Epsilon prims dim val l r hleaf] at hok
      cases hok
      refine ⟨?_, ?_, ?_⟩
      · intro e he
        simp only [List.mem_cons, List.mem_map, List.mem_range] at he
        rcases he with rfl | ⟨i, _, rfl⟩ <;> simp [Event.path, depth]
      · simp only [List.map_cons, List.map_map]
        refine List.nodup_cons.2 ⟨?_, ?_⟩
        · simp [Event.key, Event.path, Event.index]
        · apply List.Nodup.map _ (List.nodup_range _)
          intro i j hij
          simpa [Event.key, Event.path, Event.index] using hij
      · intro path i hmem
        simp only [List.mem_cons, List.mem_map, List.mem_range] at hmem
        rcases hmem with h | ⟨j, hj, h⟩
        · cases h
        · simp only [Event.test.injEq] at h
          rw [← h.1, ← h.2]
          simp only [primAt, hleaf, if_true]
          rw [List.get?_eq_get hj]
          rfl
    · have hleaf' : isLeaf l r = false := by simpa using hleaf
      obtain ⟨o, d, _, _, hcase⟩ :=
        intersect_branch_cases Epsilon prims dim val l r hleaf' ray t0 t1 out hok
      have hF : ∀ ray t0 t1 out, intersect Epsilon (FrontNode d l r) ray t0 t1 = .ok out →
          (∀ e ∈ out.log, e.path.length < depth (FrontNode d l r)) ∧
            (out.log.map Event.key).Nodup ∧
            ∀ path i, Event.test path i ∈ out.log →
              (primAt (FrontNode d l r) path i).isSome = true := by
        unfold FrontNode; split
        · exact ihr
        · exact ihl
      have hB : ∀ ray t0 t1 out, intersect Epsilon (BackNode d l r) ray t0 t1 = .ok out →
          (∀ e ∈ out.log, e.path.length < depth (BackNode d l r)) ∧
            (out.log.map Event.key).Nodup ∧
            ∀ path i, Event.test path i ∈ out.log →
              (primAt (BackNode d l r) path i).isSome = true := by
        unfold BackNode; split
        · exact ihl
        · exact ihr
      have hdF := depth_front_le d l r
      have hdB := depth_back_le d l r
      -- the log of a call that went into one child
      have one : ∀ (s : Side) (c : ptr_bspnode_t) (log : List Event),
          c = s.pick l r → depth c ≤ max (depth l) (depth r) →
          ((∀ e ∈ log, e.path.length < depth c) ∧ (log.map Event.key).Nodup ∧
            ∀ path i, Event.test path i ∈ log → (primAt c path i).isSome = true) →
          (∀ e ∈ log.map (Event.under s),
              e.path.length < depth (.node prims dim val l r)) ∧
            ((log.map (Event.under s)).map Event.key).Nodup ∧
            ∀ path i, Event.test path i ∈ log.map (Event.under s) →
              (primAt (.node prims dim val l r) path i).isSome = true := by
        intro s c log hc hdc ⟨h1, h2, h3⟩
        refine ⟨?_, keys_under_nodup s log h2, ?_⟩
        · intro e he
          obtain ⟨e', he', rfl⟩ := List.mem_map.1 he
          have := h1 e' he'
          rw [Event.path_under]
          simp only [List.length_cons, depth]
          omega
        · intro path i hmem
          obtain ⟨e', he', heq⟩ := List.mem_map.1 hmem
          cases e' with
          | call _ _ _ => cases heq
          | test p j =>
            simp only [Event.under, Event.test.injEq] at heq
            rw [← heq.1, ← heq.2, primAt_pick, ← hc]
            exact h3 p j he'
      have head : ∀ (t0 t1 : Dbl) (rest : List Event),
          ((∀ e ∈ rest, e.path.length < depth (.node prims dim val l r)) ∧
            (rest.map Event.key).Nodup ∧
            ∀ path i, Event.test path i ∈ rest →
              (primAt (.node prims dim val l r) path i).isSome = true) →
          (Event.call [] t0 t1).key ∉ rest.map Event.key →
          (∀ e ∈ Event.call [] t0 t1 :: rest,
              e.path.length < depth (.node prims dim val l r)) ∧
            ((Event.call [] t0 t1 :: rest).map Event.key).Nodup ∧
            ∀ path i, Event.test path i ∈ Event.call [] t0 t1 :: rest →
              (primAt (.node prims dim val l r) path i).isSome = true := by
        intro t0 t1 rest ⟨h1, h2, h3⟩ hnot
        refine ⟨?_, List.nodup_cons.2 ⟨hnot, h2⟩, ?_⟩
        · intro e he
          rcases List.mem_cons.1 he with rfl | he
          · simp [Event.path, depth]
          · exact h1 e he
        · intro path i hmem
          rcases List.mem_cons.1 hmem with h | h
          · cases h
          · exact h3 path i h
      rcases hcase with ⟨_, b, hb, rfl⟩ | ⟨_, _, f, hf, rfl⟩ |
        ⟨_, _, f, hf, ⟨_, rfl⟩ | ⟨_, b, hb, rfl⟩⟩
      · exact head _ _ _ (one _ _ b.log (BackNode_pick d l r) hdB (hB _ _ _ b hb))
          (key_call_not_mem_under _ _ _ _)
      · exact head _ _ _ (one _ _ f.log (FrontNode_pick d l r) hdF (hF _ _ _ f hf))
          (key_call_not_mem_under _ _ _ _)
      · exact head _ _ _ (one _ _ f.log (FrontNode_pick d l r) hdF (hF _ _ _ f hf))
          (key_call_not_mem_under _ _ _ _)
      · obtain ⟨f1, f2, f3⟩ := one _ _ f.log (FrontNode_pick d l r) hdF (hF _ _ _ f hf)
        obtain ⟨b1, b2, b3⟩ := one _ _ b.log (BackNode_pick d l r) hdB (hB _ _ _ b hb)
        refine head _ _ _ ⟨?_, ?_, ?_⟩ ?_
        · intro e he
          rcases List.mem_append.1 he with h | h
          · exact f1 e h
          · exact b1 e h
        · rw [List.map_append]
          refine List.Nodup.append f2 b2 ?_
          intro k hkf hkb
          simp only [List.map_map, List.mem_map, Function.comp] at hkf hkb
          obtain ⟨e1, _, h1⟩ := hkf
          obtain ⟨e2, _, h2⟩ := hkb
          rw [Event.key_under] at h1 h2
          rw [← h2] at h1
          simp only [Prod.mk.injEq, List.cons.injEq] at h1
          exact front_ne_back d h1.1.1
        · intro path i hmem
          rcases List.mem_append.1 hmem with h | h
          · exact f3 path i h
          · exact b3 path i h
        · rw [List.map_append, List.mem_append]
          rintro (h | h)
          · exact key_call_not_mem_under _ _ _ _ h
          · exact key_call_not_mem_under _ _ _ _ h

/-- C11. On every tree that satisfies the leaf/branch invariant, for every ray and every
`t0`, `t1`, `intersect` returns; every invocation and every primitive test of the traversal
happens at a node whose nesting level (path length plus one) is at most the depth of the
tree; no two events of the log have the same key, so `intersect` is invoked at most once on
each node and each primitive stored in a leaf is tested at most once; and every test is a
test of a primitive stored at that position. -/
theorem traversal_terminates (Epsilon : Dbl) (n : ptr_bspnode_t) (ray : Ray) (t0 t1 : Dbl)
    (hwf : wellFormed n = true) :
    ∃ out, intersect Epsilon n ray t0 t1 = .ok out ∧
      (∀ e ∈ out.log, e.path.length + 1 ≤ depth n) ∧
      (out.log.map Event.key).Nodup ∧
      ∀ path i, Event.test path i ∈ out.log → (primAt n path i).isSome = true := by
  obtain ⟨out, hok⟩ := intersect_returns Epsilon n hwf ray t0 t1
  obtain ⟨h1, h2, h3⟩ := intersect_log_shape Epsilon n ray t0 t1 out hok
  exact ⟨out, hok, fun e he => h1 e he, h2, h3⟩

/-- C11, at the scenario tree (depth 2) and its forward ray with the interval `[0, 10]`. -/
theorem traversal_terminates_witness :
    wellFormed scenarioTree = true ∧ depth scenarioTree = 2 ∧
    ∃ out, intersect (Dbl.fin (1 / 1000)) scenarioTree forwardRay (Dbl.fin 0) (Dbl.fin 10)
        = .ok out ∧
      (∀ e ∈ out.log, e.path.length + 1 ≤ depth scenarioTree) ∧
      (out.log.map Event.key).Nodup ∧
      ∀ path i, Event.test path i ∈ out.log → (primAt scenarioTree path i).isSome = true :=
  ⟨rfl, rfl, traversal_terminates (Dbl.fin (1 / 1000)) scenarioTree forwardRay (Dbl.fin 0)
    (Dbl.fin 10) rfl⟩

/-! ## The shape of nodes -/

/-- C12, as stated, fails.  The public branch constructor stores the two pointers it is
given without checking them: called with a null pointer and a leaf it builds a node with
exactly one child, and `isLeaf` is false for that node, so it is treated as a branch. -/
theorem one_child_node_constructible :
    oneChildNode = CBSPNode.branch 0 (Dbl.fin 5) .null (CBSPNode.leaf []) ∧
      childCount oneChildNode = 1 ∧
      oneChildNode = .node [] 0 (Dbl.fin 5) .null (CBSPNode.leaf []) ∧
      isLeaf .null (CBSPNode.leaf []) = false :=
  ⟨rfl, rfl, rfl, rfl⟩

/-- C12, amended.  A node built with the leaf constructor has both children absent.  A node
built with the branch constructor has exactly the two pointers passed as children: it has
both children present if and only if both pointers are non-null, and both absent if and
only if both are null.  `isLeaf` is true exactly for the nodes with both children absent,
so a node is treated as a branch if and only if at least one child is present. -/
theorem node_shape (vpPrims : List IPrim) (splitDim : Int) (splitVal : Dbl)
    (left right : ptr_bspnode_t) :
    (CBSPNode.leaf vpPrims = .node vpPrims 0 (Dbl.fin 0) .null .null ∧
      childCount (CBSPNode.leaf vpPrims) = 0) ∧
    (CBSPNode.branch splitDim splitVal left right = .node [] splitDim splitVal left right ∧
      (childCount (CBSPNode.branch splitDim splitVal left right) = 2 ↔
        left ≠ .null ∧ right ≠ .null) ∧
      (childCount (CBSPNode.branch splitDim splitVal left right) = 0 ↔
        left = .null ∧ right = .null)) ∧
    (isLeaf left right = true ↔ left = .null ∧ right = .null) ∧
    (isLeaf left right = false ↔ left ≠ .null ∨ right ≠ .null) := by
  refine ⟨⟨rfl, rfl⟩, ⟨rfl, ?_, ?_⟩, ?_, ?_⟩ <;>
    cases left <;> cases right <;>
    simp [CBSPNode.branch, CBSPNode.general, childCount, isLeaf, ptr_bspnode_t.toBool]

/-! ## The closest hit so far -/

/-- C13. On every tree that satisfies the leaf/branch invariant and whose primitives update
the ray only when they find a strictly closer hit, for every ray and every `t0`, `t1`, the
traversal returns and, whatever it returns, it has not increased `ray.t` (the final value
is the incoming one or strictly below it, and less than or equal to it when the incoming
one is a number) and it has not cleared `ray.hit`. -/
theorem closest_so_far_preserved (Epsilon : Dbl) (n : ptr_bspnode_t) (ray : Ray)
    (t0 t1 : Dbl) (hwf : wellFormed n = true)
    (hc : ∀ p ∈ leafPrims n, UpdatesOnlyIfCloser p) :
    ∃ out, intersect Epsilon n ray t0 t1 = .ok out ∧
      (out.ray.t = ray.t ∨ Dbl.lt out.ray.t ray.t = true) ∧
      Dbl.lt ray.t out.ray.t = false ∧
      (ray.t ≠ Dbl.nan → Dbl.le out.ray.t ray.t = true) ∧
      (ray.hit = true → out.ray.hit = true) := by
  obtain ⟨out, hok⟩ := intersect_returns Epsilon n hwf ray t0 t1
  have hct : ∀ p ∈ testedPrims n out.log, UpdatesOnlyIfCloser p :=
    fun p hp => hc p (testedPrims_subset n out.log p hp)
  have hray := intersect_ray_eq Epsilon n ray t0 t1 out hok
  have hmono := testAgainst_t_mono hct ray
  rw [← hray] at hmono
  refine ⟨out, hok, hmono, ?_, ?_, ?_⟩
  · rcases hmono with h | h
    · rw [h]; exact Dbl.lt_irrefl _
    · exact Dbl.lt_eq_false_of_le (Dbl.le_of_lt h)
  · intro hn
    rcases hmono with h | h
    · rw [h]; exact Dbl.le_refl hn
    · exact Dbl.le_of_lt h
  · intro hh
    rw [hray]
    exact testAgainst_hit_mono hct ray hh

/-- C13, at the scenario tree and its forward ray with the interval `[0, 10]`. -/
theorem closest_so_far_preserved_witness :
    ∃ out, intersect (Dbl.fin (1 / 1000)) scenarioTree forwardRay (Dbl.fin 0) (Dbl.fin 10)
        = .ok out ∧
      (out.ray.t = forwardRay.t ∨ Dbl.lt out.ray.t forwardRay.t = true) ∧
      Dbl.lt forwardRay.t out.ray.t = false ∧
      (forwardRay.t ≠ Dbl.nan → Dbl.le out.ray.t forwardRay.t = true) ∧
      (forwardRay.hit = true → out.ray.hit = true) :=
  closest_so_far_preserved (Dbl.fin (1 / 1000)) scenarioTree forwardRay (Dbl.fin 0)
    (Dbl.fin 10) rfl scenarioTree_obeys

/-! ## Absent children -/

theorem Vec3f.get_error (v : Vec3f) (i : Int) (e : Fault) (h : v.get i = .error e) :
    e = Fault.indexOutOfRange := by
  unfold Vec3f.get at h
  split at h
  · cases h
  · split at h
    · cases h
    · split at h
      · cases h
      · cases h; rfl

/-- A fault of a call on a branch node is an index out of range at that node, or the fault
of a call on one of its two children. -/
theorem intersect_branch_error (Epsilon : Dbl) (prims : List IPrim) (dim : Int) (val : Dbl)
    (l r : ptr_bspnode_t) (h : isLeaf l r = false) (ray : Ray) (t0 t1 : Dbl) (e : Fault)
    (herr : intersect Epsilon (.node prims dim val l r) ray t0 t1 = .error e) :
    e = Fault.indexOutOfRange ∨
      (∃ ray' a b, intersect Epsilon l ray' a b = .error e) ∨
      (∃ ray' a b, intersect Epsilon r ray' a b = .error e) := by
  cases ho : ray.org.get dim with
  | error e' =>
    rw [intersect] at herr
    simp only [h, ho, Bool.false_eq_true, if_false, Except.error.injEq] at herr
    subst herr
    exact Or.inl (Vec3f.get_error _ _ _ ho)
  | ok o =>
    cases hd : ray.dir.get dim with
    | error e' =>
      rw [intersect] at herr
      simp only [h, ho, hd, Bool.false_eq_true, if_false, Except.error.injEq] at herr
      subst herr
      exact Or.inl (Vec3f.get_error _ _ _ hd)
    | ok d =>
      right
      have hF : ∀ ray' a b, intersect Epsilon (FrontNode d l r) ray' a b = .error e →
          (∃ ray' a b, intersect Epsilon l ray' a b = .error e) ∨
            (∃ ray' a b, intersect Epsilon r ray' a b = .error e) := by
        unfold FrontNode; split
        · exact fun ray' a b hx => Or.inr ⟨ray', a, b, hx⟩
        · exact fun ray' a b hx => Or.inl ⟨ray', a, b, hx⟩
      have hB : ∀ ray' a b, intersect Epsilon (BackNode d l r) ray' a b = .error e →
          (∃ ray' a b, intersect Epsilon l ray' a b = .error e) ∨
            (∃ ray' a b, intersect Epsilon r ray' a b = .error e) := by
        unfold BackNode; split
        · exact fun ray' a b hx => Or.inl ⟨ray', a, b, hx⟩
        · exact fun ray' a b hx => Or.inr ⟨ray', a, b, hx⟩
      rw [intersect_branch Epsilon prims dim val l r h ray t0 t1 o d ho hd] at herr
      split at herr
      · cases hb : intersect Epsilon (BackNode d l r) ray t0 t1 with
        | error x =>
          rw [hb] at herr
          simp only [Except.map, Except.error.injEq] at herr
          subst herr
          exact hB _ _ _ hb
        | ok b => rw [hb] at herr; simp [Except.map] at herr
      · split at herr
        · cases hf : intersect Epsilon (FrontNode d l r) ray t0 t1 with
          | error x =>
            rw [hf] at herr
            simp only [Except.map, Except.error.injEq] at herr
            subst herr
            exact hF _ _ _ hf
          | ok f => rw [hf] at herr; simp [Except.map] at herr
        · cases hf : intersect Epsilon (FrontNode d l r) ray t0
              (Dbl.div (Dbl.sub val o) d) with
          | error x =>
            rw [hf] at herr
            simp only [Except.error.injEq] at herr
            subst herr
            exact hF _ _ _ hf
          | ok f =>
            rw [hf] at herr
            by_cases hr : f.ret = true
            · simp [hr] at herr
            · simp only [hr, Bool.false_eq_true, if_false] at herr
              cases hb : intersect Epsilon (BackNode d l r) f.ray
                  (Dbl.div (Dbl.sub val o) d) t1 with
              | error x =>
                rw [hb] at herr
                simp only [Except.map, Except.error.injEq] at herr
                subst herr
                exact hB _ _ _ hb
              | ok b => rw [hb] at herr; simp [Except.map] at herr

/-- The call on the one-child node of `oneChildNode` with the forward ray on `[0, 10]`
goes through the absent left child. -/
theorem oneChildNode_faults (Epsilon : Dbl) :
    intersect Epsilon oneChildNode forwardRay (Dbl.fin 0) (Dbl.fin 10) =
      .error Fault.nullDeref := by
  have hs : Dbl.div (Dbl.sub (Dbl.fin 5) (Dbl.fin 0)) (Dbl.fin 1) = Dbl.fin 5 := by
    rw [Dbl.sub_fin, Dbl.div_fin (by norm_num) (by norm_num)]; norm_num
  have key := intersect_branch Epsilon [] 0 (Dbl.fin 5) .null (CBSPNode.leaf []) rfl
    forwardRay (Dbl.fin 0) (Dbl.fin 10) (Dbl.fin 0) (Dbl.fin 1) rfl rfl
  rw [hs] at key
  simp only [FrontNode_nonneg 1 (by norm_num)] at key
  refine Eq.trans key ?_
  norm_num [Dbl.ge_fin, Dbl.le_fin, intersect]

/-- C15. On a tree in which every node has both children or none, for every ray and every
interval, `intersect` never goes through an absent child pointer.  The invariant is needed:
the node built from a null pointer and a leaf has exactly one child, `isLeaf` is false for
it, and the call with the forward ray on `[0, 10]` descends into the absent child. -/
theorem no_absent_child_dereferenced (Epsilon : Dbl) (n : ptr_bspnode_t) (ray : Ray)
    (t0 t1 : Dbl) :
    (bothOrNone n = true → intersect Epsilon n ray t0 t1 ≠ .error Fault.nullDeref) ∧
      (childCount oneChildNode = 1 ∧
        intersect Epsilon oneChildNode forwardRay (Dbl.fin 0) (Dbl.fin 10) =
          .error Fault.nullDeref) := by
  refine ⟨?_, rfl, oneChildNode_faults Epsilon⟩
  intro hshape
  have key : ∀ n, bothOrNone n = true →
      ∀ ray t0 t1, intersect Epsilon n ray t0 t1 ≠ .error Fault.nullDeref := by
    intro n
    induction n with
    | null => intro h; simp [bothOrNone] at h
    | node prims dim val l r ihl ihr =>
      intro h ray t0 t1 herr
      by_cases hleaf : isLeaf l r = true
      · rw [intersect_leaf Epsilon prims dim val l r hleaf] at herr
        cases herr
      · have hleaf' : isLeaf l r = false := by simpa using hleaf
        simp only [bothOrNone, hleaf', Bool.false_or, Bool.and_eq_true] at h
        rcases intersect_branch_error Epsilon prims dim val l r hleaf' ray t0 t1 _ herr with
          h1 | ⟨ray', a, b, h1⟩ | ⟨ray', a, b, h1⟩
        · cases h1
        · exact ihl h.1 ray' a b h1
        · exact ihr h.2 ray' a b h1
  exact key n hshape ray t0 t1

/-- C15, at the scenario tree and its forward ray with the interval `[0, 10]`. -/
theorem no_absent_child_dereferenced_witness :
    bothOrNone scenarioTree = true ∧
      intersect (Dbl.fin (1 / 1000)) scenarioTree forwardRay (Dbl.fin 0) (Dbl.fin 10) ≠
        .error Fault.nullDeref :=
  ⟨rfl, (no_absent_child_dereferenced (Dbl.fin (1 / 1000)) scenarioTree forwardRay
    (Dbl.fin 0) (Dbl.fin 10)).1 rfl⟩

/-! ## Rays parallel to the split plane -/

namespace Dbl

/-- Division of the distance to the split plane by a positive zero, origin below the
split value: plus infinity. -/
theorem neg_fin_of_ne {q : ℚ} (hq : q ≠ 0) : neg (fin q) = fin (-q) := by
  simp [neg, hq]

/-- The distance from an origin to a larger split value is positive. -/
theorem sub_pos_of_lt {o val : Dbl} (h : lt o val = true) :
    sub val o = pinf ∨ ∃ q : ℚ, 0 < q ∧ sub val o = fin q := by
  cases o with
  | nan => simp [lt] at h
  | pinf => cases val <;> simp [lt] at h
  | ninf =>
    cases val with
    | nan => simp [lt] at h
    | ninf => simp [lt] at h
    | pinf => exact Or.inl rfl
    | negZero => exact Or.inl rfl
    | fin a => exact Or.inl rfl
  | negZero =>
    cases val with
    | nan => simp [lt] at h
    | ninf => simp [lt] at h
    | negZero => simp [lt] at h
    | pinf => exact Or.inl rfl
    | fin a =>
      have ha : 0 < a := by simpa [lt] using h
      exact Or.inr ⟨a, ha, by simp [sub, neg, add]⟩
  | fin b =>
    cases val with
    | nan => simp [lt] at h
    | ninf => simp [lt] at h
    | pinf =>
      left
      by_cases hb : b = 0
      · simp [sub, neg, add, hb]
      · simp [sub, neg, add, hb]
    | negZero =>
      have hb : b < 0 := by simpa [lt] using h
      have hb0 : b ≠ 0 := ne_of_lt hb
      exact Or.inr ⟨-b, by linarith, by simp [sub, neg, add, hb0]⟩
    | fin a =>
      have hab : b < a := by simpa [lt] using h
      exact Or.inr ⟨a - b, by linarith, sub_fin a b⟩

/-- The distance from an origin to a smaller split value is negative. -/
theorem sub_neg_of_gt {o val : Dbl} (h : lt val o = true) :
    sub val o = ninf ∨ ∃ q : ℚ, q < 0 ∧ sub val o = fin q := by
  cases o with
  | nan => cases val <;> simp [lt] at h
  | ninf => cases val <;> simp [lt] at h
  | pinf =>
    cases val with
    | nan => simp [lt] at h
    | pinf => simp [lt] at h
    | ninf => exact Or.inl rfl
    | negZero => exact Or.inl rfl
    | fin a => exact Or.inl rfl
  | negZero =>
    cases val with
    | nan => simp [lt] at h
    | pinf => simp [lt] at h
    | negZero => simp [lt] at h
    | ninf => exact Or.inl rfl
    | fin a =>
      have ha : a < 0 := by simpa [lt] using h
      exact Or.inr ⟨a, ha, by simp [sub, neg, add]⟩
  | fin b =>
    cases val with
    | nan => simp [lt] at h
    | pinf => simp [lt] at h
    | ninf =>
      left
      by_cases hb : b = 0
      · simp [sub, neg, add, hb]
      · simp [sub, neg, add, hb]
    | negZero =>
      have hb : 0 < b := by simpa [lt] using h
      have hb0 : b ≠ 0 := ne_of_gt hb
      exact Or.inr ⟨-b, by linarith, by simp [sub, neg, add, hb0]⟩
    | fin a =>
      have hab : a < b := by simpa [lt] using h
      exact Or.inr ⟨a - b, by linarith, sub_fin a b⟩

/-- Division of the distance to the split plane by a positive zero, origin below the
split value: plus infinity. -/
theorem div_sub_zero_of_lt {o val : Dbl} (h : lt o val = true) :
    div (sub val o) (fin 0) = pinf := by
  rcases sub_pos_of_lt h with h1 | ⟨q, hq, h1⟩
  · rw [h1]; simp [div, signBit, infOf]
  · rw [h1]
    have hq0 : q ≠ 0 := ne_of_gt hq
    have hq1 : ¬ q < 0 := not_lt.2 hq.le
    simp [div, isZero, signBit, infOf, hq0, hq1]

/-- Division of the distance to the split plane by a positive zero, origin above the
split value: minus infinity. -/
theorem div_sub_zero_of_gt {o val : Dbl} (h : lt val o = true) :
    div (sub val o) (fin 0) = ninf := by
  rcases sub_neg_of_gt h with h1 | ⟨q, hq, h1⟩
  · rw [h1]; simp [div, signBit, infOf]
  · rw [h1]
    have hq0 : q ≠ 0 := ne_of_lt hq
    simp [div, isZero, signBit, infOf, hq0, hq]

theorem le_pinf {a : Dbl} (ha : a ≠ nan) : le a pinf = true := by
  cases a <;> simp_all [le]

theorem ninf_le {a : Dbl} (ha : a ≠ nan) : le ninf a = true := by
  cases a <;> simp_all [le]

theorem pinf_le_eq_false {a b : Dbl} (h : lt a b = true) : le pinf a = false := by
  cases a <;> cases b <;> simp_all [lt, le]

end Dbl

/-- The routine of the plane `y = c`, for a ray that crosses it ahead of its origin. -/
theorem planeY_intersect (c o d : ℚ) (ray : Ray) (ho : ray.org.y = Dbl.fin o)
    (hd : ray.dir.y = Dbl.fin d) (hd0 : d ≠ 0) (hpos : 0 < (c - o) / d) :
    (planeY (Dbl.fin c)).intersect ray =
      if Dbl.lt (Dbl.fin ((c - o) / d)) ray.t then
        { ray with t := Dbl.fin ((c - o) / d), hit := true }
      else ray := by
  have hco : c - o ≠ 0 := by
    intro h; rw [h] at hpos; simp at hpos
  simp [planeY, closerPrim, ho, hd, Dbl.sub_fin, Dbl.div_fin hco hd0, Dbl.lt_fin, hpos]

/-- The distance at which such a ray meets the plane `y = c`. -/
theorem hitDistance_planeY (c o d : ℚ) (ray : Ray) (ho : ray.org.y = Dbl.fin o)
    (hd : ray.dir.y = Dbl.fin d) (hd0 : d ≠ 0) (hpos : 0 < (c - o) / d) :
    hitDistance (planeY (Dbl.fin c)) ray = some (Dbl.fin ((c - o) / d)) := by
  have h := planeY_intersect c o d { ray with t := Dbl.pinf, hit := false } ho hd hd0 hpos
  simp only [Dbl.lt_fin_pinf, if_true] at h
  simp [hitDistance, h]

theorem planeY_obeys (c : Dbl) : UpdatesOnlyIfCloser (planeY c) :=
  closerPrim_updatesOnlyIfCloser _

/-- C14, as stated, fails.  The ray from `(3, 0, 0)` in direction `(-0.0, 1, 0)` has a
direction component along `x` that is zero and its origin on the left side of the split
plane `x = 5` of `parallelTree`.  The split distance is `2 / -0.0`, minus infinity, so
`t0 >= tSplit` holds and the traversal visits the back node, which for a component that is
not below zero is the right child: the query on `[0, 10]` visits only the right leaf and
returns false, and the plane `y = 2` of the left leaf, which the ray meets at `t = 2`, is
never tested. -/
theorem negative_zero_routes_to_far_side :
    negZeroRay.dir.get 0 = .ok Dbl.negZero ∧ Dbl.isZero Dbl.negZero = true ∧
    negZeroRay.org.get 0 = .ok (Dbl.fin 3) ∧ Dbl.lt (Dbl.fin 3) (Dbl.fin 5) = true ∧
    Dbl.lt (Dbl.fin 0) (Dbl.fin 10) = true ∧
    intersect (Dbl.fin (1 / 1000)) parallelTree negZeroRay (Dbl.fin 0) (Dbl.fin 10) =
      .ok { ret := false, ray := negZeroRay,
            log := [Event.call [] (Dbl.fin 0) (Dbl.fin 10),
                    Event.call [Side.right] (Dbl.fin 0) (Dbl.fin 10)] } ∧
    hitDistance (planeY (Dbl.fin 2)) negZeroRay = some (Dbl.fin 2) := by
  have hs : Dbl.div (Dbl.sub (Dbl.fin 5) (Dbl.fin 3)) Dbl.negZero = Dbl.ninf := by
    rw [Dbl.sub_fin]
    norm_num [Dbl.div, Dbl.isZero, Dbl.signBit, Dbl.infOf]
  have hb : ∀ {α : Type} (a b : α), BackNode Dbl.negZero a b = b := by
    intro α a b; simp [BackNode, Dbl.lt]
  have key := intersect_branch (Dbl.fin (1 / 1000)) [] 0 (Dbl.fin 5)
    (CBSPNode.leaf [planeY (Dbl.fin 2)]) (CBSPNode.leaf []) rfl negZeroRay
    (Dbl.fin 0) (Dbl.fin 10) (Dbl.fin 3) Dbl.negZero rfl rfl
  rw [hs] at key
  have hge : Dbl.ge (Dbl.fin 0) Dbl.ninf = true := rfl
  simp only [hge, if_true, hb, intersect_mk_leaf, testAgainst_nil] at key
  refine ⟨rfl, rfl, rfl, by norm_num [Dbl.lt_fin], by norm_num [Dbl.lt_fin], ?_, ?_⟩
  · refine Eq.trans key ?_
    simp [Except.map, Outcome.viaChild, Event.under, negZeroRay]
  · rw [hitDistance_planeY 2 0 1 negZeroRay rfl rfl (by norm_num) (by norm_num)]
    norm_num

/-- C14, amended.  For every branch node, every ray whose direction component along the
split dimension is the positive zero, and every interval `t0 < t1`: the call is one call on
the left child with `[t0, t1]` when `ray.org[splitDim] < splitVal`, and one call on the
right child with `[t0, t1]` when `ray.org[splitDim] > splitVal`; and on a tree that
satisfies the leaf/branch invariant the call returns a result. -/
theorem parallel_ray_routing (Epsilon : Dbl) (prims : List IPrim) (dim : Int) (val : Dbl)
    (l r : ptr_bspnode_t) (ray : Ray) (t0 t1 o : Dbl)
    (hbranch : isLeaf l r = false)
    (ho : ray.org.get dim = .ok o) (hd : ray.dir.get dim = .ok (Dbl.fin 0))
    (ht : Dbl.lt t0 t1 = true) :
    (Dbl.lt o val = true →
        intersect Epsilon (.node prims dim val l r) ray t0 t1 =
          (intersect Epsilon l ray t0 t1).map
            (fun c => { ret := c.ret, ray := c.ray,
                        log := Event.call [] t0 t1 :: c.log.map (Event.under Side.left) })) ∧
      (Dbl.lt val o = true →
        intersect Epsilon (.node prims dim val l r) ray t0 t1 =
          (intersect Epsilon r ray t0 t1).map
            (fun c => { ret := c.ret, ray := c.ray,
                        log := Event.call [] t0 t1 :: c.log.map (Event.under Side.right) })) ∧
      (wellFormed (.node prims dim val l r) = true →
        ∃ out, intersect Epsilon (.node prims dim val l r) ray t0 t1 = .ok out) := by
  have key := intersect_branch Epsilon prims dim val l r hbranch ray t0 t1 o (Dbl.fin 0) ho hd
  have ht0 : t0 ≠ Dbl.nan := Dbl.ne_nan_of_lt_left ht
  have ht1 : t1 ≠ Dbl.nan := Dbl.ne_nan_of_lt_right ht
  refine ⟨fun hlt => ?_, fun hgt => ?_, fun hwf => intersect_returns Epsilon _ hwf ray t0 t1⟩
  · rw [Dbl.div_sub_zero_of_lt hlt] at key
    have h1 : Dbl.ge t0 Dbl.pinf = false := Dbl.pinf_le_eq_false ht
    have h2 : Dbl.le t1 Dbl.pinf = true := Dbl.le_pinf ht1
    rw [if_neg (by simp [h1]), if_pos h2, FrontNode_nonneg 0 le_rfl,
      FrontNode_nonneg 0 le_rfl] at key
    exact key
  · rw [Dbl.div_sub_zero_of_gt hgt] at key
    have h1 : Dbl.ge t0 Dbl.ninf = true := Dbl.ninf_le ht0
    rw [if_pos h1, BackNode_nonneg 0 le_rfl, BackNode_nonneg 0 le_rfl] at key
    exact key

/-- C14 amended, at `parallelTree` and the ray from `(3, 0, 0)` in direction
`(+0.0, 1, 0)`: the origin lies left of the split plane and only the left leaf is
visited. -/
theorem parallel_ray_routing_witness :
    Dbl.lt (Dbl.fin 0) (Dbl.fin 10) = true ∧ Dbl.lt (Dbl.fin 3) (Dbl.fin 5) = true ∧
    intersect (Dbl.fin (1 / 1000)) parallelTree
        { negZeroRay with dir := ⟨Dbl.fin 0, Dbl.fin 1, Dbl.fin 0⟩ } (Dbl.fin 0) (Dbl.fin 10) =
      (intersect (Dbl.fin (1 / 1000)) (CBSPNode.leaf [planeY (Dbl.fin 2)])
          { negZeroRay with dir := ⟨Dbl.fin 0, Dbl.fin 1, Dbl.fin 0⟩ }
          (Dbl.fin 0) (Dbl.fin 10)).map
        (fun c => { ret := c.ret, ray := c.ray,
                    log := Event.call [] (Dbl.fin 0) (Dbl.fin 10) ::
                      c.log.map (Event.under Side.left) }) := by
  have h1 : Dbl.lt (Dbl.fin 0) (Dbl.fin 10) = true := by norm_num [Dbl.lt_fin]
  have h2 : Dbl.lt (Dbl.fin 3) (Dbl.fin 5) = true := by norm_num [Dbl.lt_fin]
  exact ⟨h1, h2, (parallel_ray_routing (Dbl.fin (1 / 1000)) [] 0 (Dbl.fin 5)
    (CBSPNode.leaf [planeY (Dbl.fin 2)]) (CBSPNode.leaf [])
    { negZeroRay with dir := ⟨Dbl.fin 0, Dbl.fin 1, Dbl.fin 0⟩ } (Dbl.fin 0) (Dbl.fin 10)
    (Dbl.fin 3) rfl rfl rfl h1).1 h2⟩

/-! ## The exit distance of the outermost call -/

theorem UpdatesOnlyIfCloser.keeps {p : IPrim} (hp : UpdatesOnlyIfCloser p) :
    KeepsGeometry p := fun ray => hp.geometry ray

theorem testAgainst_keeps {prims : List IPrim} (h : ∀ p ∈ prims, KeepsGeometry p)
    (ray : Ray) :
    (testAgainst prims ray).org = ray.org ∧ (testAgainst prims ray).dir = ray.dir := by
  induction prims generalizing ray with
  | nil => exact ⟨rfl, rfl⟩
  | cons p ps ih =>
    have hp := h p (List.mem_cons_self _ _) ray
    have hps := ih (fun q hq => h q (List.mem_cons_of_mem _ hq)) (p.intersect ray)
    rw [testAgainst_cons]
    exact ⟨hps.1.trans hp.1, hps.2.trans hp.2⟩

/-- A traversal of a tree whose primitives keep the geometry of the ray leaves the ray's
origin and direction as they were. -/
theorem intersect_keeps (Epsilon : Dbl) (n : ptr_bspnode_t) (ray : Ray) (t0 t1 : Dbl)
    (out : Outcome) (hk : ∀ p ∈ leafPrims n, KeepsGeometry p)
    (hok : intersect Epsilon n ray t0 t1 = .ok out) :
    out.ray.org = ray.org ∧ out.ray.dir = ray.dir := by
  rw [intersect_ray_eq Epsilon n ray t0 t1 out hok]
  exact testAgainst_keeps (fun p hp => hk p (testedPrims_subset n out.log p hp)) ray

/-- The value a traversal returns, for primitives that keep the geometry of the ray, split
distances that are numbers and an exit distance that is a number: the leaf test on the
final ray with the exit distance of the outermost call. -/
theorem intersect_ret_eq_of_keeps (Epsilon : Dbl) (n : ptr_bspnode_t) (ray : Ray)
    (t0 t1 : Dbl) (out : Outcome) (hk : ∀ p ∈ leafPrims n, KeepsGeometry p)
    (hs : SplitsDefined ray n) (ht1 : t1 ≠ Dbl.nan)
    (hok : intersect Epsilon n ray t0 t1 = .ok out) :
    out.ret = (out.ray.hit && Dbl.lt out.ray.t (Dbl.add t1 Epsilon)) := by
  induction n generalizing ray t0 t1 out with
  | null => simp [intersect] at hok
  | node prims dim val l r ihl ihr =>
    by_cases hleaf : isLeaf l r = true
    · rw [intersect_leaf Epsilon prims dim val l r hleaf] at hok
      cases hok
      rfl
    · have hleaf' : isLeaf l r = false := by simpa using hleaf
      obtain ⟨o, d, ho, hd, hcase⟩ :=
        intersect_branch_cases Epsilon prims dim val l r hleaf' ray t0 t1 out hok
      have hsplit : Dbl.div (Dbl.sub val o) d ≠ Dbl.nan := hs.1 hleaf' o d ho hd
      have hkF := fun p hp => hk p (leafPrims_front prims dim val l r hleaf' d p hp)
      have hkB := fun p hp => hk p (leafPrims_back prims dim val l r hleaf' d p hp)
      have hF : ∀ ray t0 t1 out, SplitsDefined ray (FrontNode d l r) → t1 ≠ Dbl.nan →
          intersect Epsilon (FrontNode d l r) ray t0 t1 = .ok out →
          out.ret = (out.ray.hit && Dbl.lt out.ray.t (Dbl.add t1 Epsilon)) := by
        revert hkF; unfold FrontNode; split
        · exact fun hkF ray t0 t1 out => ihr ray t0 t1 out hkF
        · exact fun hkF ray t0 t1 out => ihl ray t0 t1 out hkF
      have hB : ∀ ray t0 t1 out, SplitsDefined ray (BackNode d l r) → t1 ≠ Dbl.nan →
          intersect Epsilon (BackNode d l r) ray t0 t1 = .ok out →
          out.ret = (out.ray.hit && Dbl.lt out.ray.t (Dbl.add t1 Epsilon)) := by
        revert hkB; unfold BackNode; split
        · exact fun hkB ray t0 t1 out => ihl ray t0 t1 out hkB
        · exact fun hkB ray t0 t1 out => ihr ray t0 t1 out hkB
      rcases hcase with ⟨_, b, hb, rfl⟩ | ⟨_, _, f, hf, rfl⟩ |
        ⟨_, hle, f, hf, ⟨hfr, rfl⟩ | ⟨_, b, hb, rfl⟩⟩
      · exact hB _ _ _ b (SplitsDefined_back hs d) ht1 hb
      · exact hF _ _ _ f (SplitsDefined_front hs d) ht1 hf
      · have h1 := hF _ _ _ f (SplitsDefined_front hs d) hsplit hf
        rw [hfr] at h1
        have h2 : f.ray.hit = true ∧
            Dbl.lt f.ray.t (Dbl.add (Dbl.div (Dbl.sub val o) d) Epsilon) = true := by
          simpa using h1.symm
        have h3 := Dbl.lt_add_mono h2.2 (Dbl.lt_of_le_eq_false ht1 hsplit hle)
        show true = (f.ray.hit && Dbl.lt f.ray.t (Dbl.add t1 Epsilon))
        rw [h2.1, h3]; rfl
      · have hgeo := intersect_keeps Epsilon _ ray _ _ f hkF hf
        exact hB _ _ _ b
          (SplitsDefined_congr hgeo.1.symm hgeo.2.symm _ (SplitsDefined_back hs d)) ht1 hb

/-- The query on `planeTree` with `upRay` on `[0, 10]`: the ray runs in the split plane of
the root, whose split distance is `0 / 0`, so the root calls the left child with
`[0, NaN]`; that child calls its own left leaf with `[0, 100]`, which reports the hit at
`t = 50`. -/
theorem plane_query :
    intersect (Dbl.fin (1 / 1000)) planeTree upRay (Dbl.fin 0) (Dbl.fin 10) =
      .ok { ret := true, ray := { upRay with t := Dbl.fin 50, hit := true },
            log := [Event.call [] (Dbl.fin 0) (Dbl.fin 10),
                    Event.call [Side.left] (Dbl.fin 0) Dbl.nan,
                    Event.call [Side.left, Side.left] (Dbl.fin 0) (Dbl.fin 100),
                    Event.test [Side.left, Side.left] 0] } := by
  have hp : (planeY (Dbl.fin 50)).intersect upRay
      = { upRay with t := Dbl.fin 50, hit := true } := by
    rw [planeY_intersect 50 0 1 upRay rfl rfl (by norm_num) (by norm_num)]
    norm_num [upRay, Dbl.lt_fin_pinf]
  have hs : Dbl.div (Dbl.sub (Dbl.fin 0) (Dbl.fin 0)) (Dbl.fin 0) = Dbl.nan := by
    rw [Dbl.sub_fin]; simp [Dbl.div, Dbl.isZero]
  have hs' : Dbl.div (Dbl.sub (Dbl.fin 100) (Dbl.fin 0)) (Dbl.fin 1) = Dbl.fin 100 := by
    rw [Dbl.sub_fin, Dbl.div_fin (by norm_num) (by norm_num)]; norm_num
  have inner := intersect_branch (Dbl.fin (1 / 1000)) [] 1 (Dbl.fin 100)
    (CBSPNode.leaf [planeY (Dbl.fin 50)]) (CBSPNode.leaf []) rfl upRay (Dbl.fin 0) Dbl.nan
    (Dbl.fin 0) (Dbl.fin 1) rfl rfl
  rw [hs'] at inner
  have hge' : Dbl.ge (Dbl.fin 0) (Dbl.fin 100) = false := by norm_num [Dbl.ge_fin]
  have hle' : Dbl.le Dbl.nan (Dbl.fin 100) = false := rfl
  have hlt' : Dbl.lt (Dbl.fin 50) (Dbl.add (Dbl.fin 100) (Dbl.fin (1 / 1000))) = true := by
    norm_num [Dbl.lt_fin, Dbl.add_fin]
  simp only [hge', hle', Bool.false_eq_true, if_false, FrontNode_nonneg 1 (by norm_num),
    intersect_mk_leaf, testAgainst_cons, testAgainst_nil, hp, hlt', Bool.and_true,
    if_true] at inner
  have inner' : intersect (Dbl.fin (1 / 1000))
      (CBSPNode.branch 1 (Dbl.fin 100) (CBSPNode.leaf [planeY (Dbl.fin 50)])
        (CBSPNode.leaf [])) upRay (Dbl.fin 0) Dbl.nan = _ := inner
  have key := intersect_branch (Dbl.fin (1 / 1000)) [] 0 (Dbl.fin 0)
    (CBSPNode.branch 1 (Dbl.fin 100) (CBSPNode.leaf [planeY (Dbl.fin 50)]) (CBSPNode.leaf []))
    (CBSPNode.leaf []) rfl upRay (Dbl.fin 0) (Dbl.fin 10) (Dbl.fin 0) (Dbl.fin 0) rfl rfl
  rw [hs] at key
  have hge : Dbl.ge (Dbl.fin 0) Dbl.nan = false := rfl
  have hle : Dbl.le (Dbl.fin 10) Dbl.nan = false := rfl
  simp only [hge, hle, Bool.false_eq_true, if_false, FrontNode_nonneg 0 le_rfl,
    inner'] at key
  refine Eq.trans key ?_
  simp [Outcome.viaChild, Event.under]
  rfl

theorem planeTree_obeys : ∀ p ∈ leafPrims planeTree, UpdatesOnlyIfCloser p := by
  intro p hp
  have h : leafPrims planeTree = [planeY (Dbl.fin 50)] := rfl
  rw [h] at hp
  simp only [List.mem_singleton] at hp
  subst hp
  exact planeY_obeys _

/-- C16, as stated, fails.  On `planeTree`, which satisfies the leaf/branch invariant, the
ray from the origin in direction `+y` runs in the split plane `x = 0` of the root, so the
split distance there is `0 / 0`, not a number, and neither one-sided test holds; the front
call, with exit bound NaN, returns true from a nested front call bounded by 100.  The query
on `[0, 10]` returns true with `ray.t = 50`, which is not below `10 + Epsilon`. -/
theorem true_result_beyond_exit_distance :
    wellFormed planeTree = true ∧
    (∀ p ∈ leafPrims planeTree, UpdatesOnlyIfCloser p) ∧
    ∃ out, intersect (Dbl.fin (1 / 1000)) planeTree upRay (Dbl.fin 0) (Dbl.fin 10) = .ok out ∧
      out.ret = true ∧ out.ray.hit = true ∧ out.ray.t = Dbl.fin 50 ∧
      Dbl.lt out.ray.t (Dbl.add (Dbl.fin 10) (Dbl.fin (1 / 1000))) = false :=
  ⟨rfl, planeTree_obeys, _, plane_query, rfl, rfl, rfl, by norm_num [Dbl.lt_fin, Dbl.add_fin]⟩

/-- C16, amended.  For every tree that satisfies the leaf/branch invariant and whose
primitives leave the ray's origin and direction unchanged, every ray for which the split
distances are numbers, every `t0` and every `t1` that is a number: `intersect` returns, and
if it returns true then `ray.hit` is set and `ray.t < t1 + Epsilon` for the `t1` of that
outermost call. -/
theorem true_result_bounded (Epsilon : Dbl) (n : ptr_bspnode_t) (ray : Ray) (t0 t1 : Dbl)
    (hwf : wellFormed n = true) (hk : ∀ p ∈ leafPrims n, KeepsGeometry p)
    (hs : SplitsDefined ray n) (ht1 : t1 ≠ Dbl.nan) :
    ∃ out, intersect Epsilon n ray t0 t1 = .ok out ∧
      (out.ret = true →
        out.ray.hit = true ∧ Dbl.lt out.ray.t (Dbl.add t1 Epsilon) = true) := by
  obtain ⟨out, hok⟩ := intersect_returns Epsilon n hwf ray t0 t1
  refine ⟨out, hok, fun hret => ?_⟩
  have h := intersect_ret_eq_of_keeps Epsilon n ray t0 t1 out hk hs ht1 hok
  rw [hret] at h
  simpa using h.symm

/-- C16 amended, at the scenario tree and its forward ray with the interval `[0, 10]`. -/
theorem true_result_bounded_witness :
    ∃ out, intersect (Dbl.fin (1 / 1000)) scenarioTree forwardRay (Dbl.fin 0) (Dbl.fin 10)
        = .ok out ∧
      (out.ret = true →
        out.ray.hit = true ∧
          Dbl.lt out.ray.t (Dbl.add (Dbl.fin 10) (Dbl.fin (1 / 1000))) = true) :=
  true_result_bounded (Dbl.fin (1 / 1000)) scenarioTree forwardRay (Dbl.fin 0) (Dbl.fin 10)
    rfl (fun p hp => (scenarioTree_obeys p hp).keeps) scenarioTree_splitsDefined
    (by simp)

/-! ## The intervals of the recursive calls -/

theorem mem_under_call {s : Side} {log : List Event} {path : List Side} {a b : Dbl}
    (h : Event.call path a b ∈ log.map (Event.under s)) :
    ∃ p, path = s :: p ∧ Event.call p a b ∈ log := by
  obtain ⟨e, he, heq⟩ := List.mem_map.1 h
  cases e with
  | test p i => simp [Event.under] at heq
  | call p x y =>
    simp only [Event.under, Event.call.injEq] at heq
    obtain ⟨h1, h2, h3⟩ := heq
    subst h2 h3
    exact ⟨p, h1.symm, he⟩

/-- The only invocation a traversal logs at the node it was started on is the one with the
interval it was started with. -/
theorem root_call (Epsilon : Dbl) (n : ptr_bspnode_t) (ray : Ray) (t0 t1 : Dbl)
    (out : Outcome) (hok : intersect Epsilon n ray t0 t1 = .ok out) (a b : Dbl)
    (hmem : Event.call [] a b ∈ out.log) : a = t0 ∧ b = t1 := by
  cases n with
  | null => simp [intersect] at hok
  | node prims dim val l r =>
    have hunder : ∀ (s : Side) (log : List Event),
        Event.call [] a b ∉ log.map (Event.under s) := by
      intro s log h
      obtain ⟨p, hp, _⟩ := mem_under_call h
      cases hp
    by_cases hleaf : isLeaf l r = true
    · rw [intersect_leaf Epsilon prims dim val l r hleaf] at hok
      cases hok
      simp only [List.mem_cons, Event.call.injEq, true_and, List.mem_map, List.mem_range]
        at hmem
      rcases hmem with h | ⟨i, _, h⟩
      · exact h
      · cases h
    · have hleaf' : isLeaf l r = false := by simpa using hleaf
      obtain ⟨o, d, _, _, hcase⟩ :=
        intersect_branch_cases Epsilon prims dim val l r hleaf' ray t0 t1 out hok
      have fin : ∀ rest : List Event, Event.call [] a b ∈ Event.call [] t0 t1 :: rest →
          Event.call [] a b ∉ rest → a = t0 ∧ b = t1 := by
        intro rest h hn
        rcases List.mem_cons.1 h with h | h
        · simp only [Event.call.injEq, true_and] at h
          exact h
        · exact absurd h hn
      rcases hcase with ⟨_, c, _, rfl⟩ | ⟨_, _, c, _, rfl⟩ |
        ⟨_, _, f, _, ⟨_, rfl⟩ | ⟨_, c, _, rfl⟩⟩
      · exact fin _ hmem (hunder _ _)
      · exact fin _ hmem (hunder _ _)
      · exact fin _ hmem (hunder _ _)
      · refine fin _ hmem ?_
        intro h
        rcases List.mem_append.1 h with h | h
        · exact hunder _ _ h
        · exact hunder _ _ h

/-- The interval of every invocation of a traversal started with `t0 < t1` lies within
`[t0, t1]` and is not empty, when the primitives keep the geometry of the ray and the split
distances are numbers. -/
theorem intervals_kept (Epsilon : Dbl) (n : ptr_bspnode_t) (ray : Ray) (t0 t1 : Dbl)
    (out : Outcome) (hk : ∀ p ∈ leafPrims n, KeepsGeometry p) (hs : SplitsDefined ray n)
    (ht : Dbl.lt t0 t1 = true) (hok : intersect Epsilon n ray t0 t1 = .ok out) :
    ∀ path a b, Event.call path a b ∈ out.log →
      Dbl.le t0 a = true ∧ Dbl.lt a b = true ∧ Dbl.le b t1 = true := by
  induction n generalizing ray t0 t1 out with
  | null => simp [intersect] at hok
  | node prims dim val l r ihl ihr =>
    have ht0 : t0 ≠ Dbl.nan := Dbl.ne_nan_of_lt_left ht
    have ht1 : t1 ≠ Dbl.nan := Dbl.ne_nan_of_lt_right ht
    have base : Dbl.le t0 t0 = true ∧ Dbl.lt t0 t1 = true ∧ Dbl.le t1 t1 = true :=
      ⟨Dbl.le_refl ht0, ht, Dbl.le_refl ht1⟩
    intro path a b hmem
    by_cases hleaf : isLeaf l r = true
    · rw [intersect_leaf Epsilon prims dim val l r hleaf] at hok
      cases hok
      simp only [List.mem_cons, Event.call.injEq, List.mem_map, List.mem_range] at hmem
      rcases hmem with ⟨_, rfl, rfl⟩ | ⟨i, _, h⟩
      · exact base
      · cases h
    · have hleaf' : isLeaf l r = false := by simpa using hleaf
      obtain ⟨o, d, ho, hd, hcase⟩ :=
        intersect_branch_cases Epsilon prims dim val l r hleaf' ray t0 t1 out hok
      have hsplit : Dbl.div (Dbl.sub val o) d ≠ Dbl.nan := hs.1 hleaf' o d ho hd
      have hkF := fun p hp => hk p (leafPrims_front prims dim val l r hleaf' d p hp)
      have hkB := fun p hp => hk p (leafPrims_back prims dim val l r hleaf' d p hp)
      have hF : ∀ ray t0 t1 out, SplitsDefined ray (FrontNode d l r) →
          Dbl.lt t0 t1 = true → intersect Epsilon (FrontNode d l r) ray t0 t1 = .ok out →
          ∀ path a b, Event.call path a b ∈ out.log →
            Dbl.le t0 a = true ∧ Dbl.lt a b = true ∧ Dbl.le b t1 = true := by
        revert hkF; unfold FrontNode; split
        · exact fun hkF ray t0 t1 out => ihr ray t0 t1 out hkF
        · exact fun hkF ray t0 t1 out => ihl ray t0 t1 out hkF
      have hB : ∀ ray t0 t1 out, SplitsDefined ray (BackNode d l r) →
          Dbl.lt t0 t1 = true → intersect Epsilon (BackNode d l r) ray t0 t1 = .ok out →
          ∀ path a b, Event.call path a b ∈ out.log →
            Dbl.le t0 a = true ∧ Dbl.lt a b = true ∧ Dbl.le b t1 = true := by
        revert hkB; unfold BackNode; split
        · exact fun hkB ray t0 t1 out => ihl ray t0 t1 out hkB
        · exact fun hkB ray t0 t1 out => ihr ray t0 t1 out hkB
      have hhead : Event.call path a b = Event.call [] t0 t1 →
          Dbl.le t0 a = true ∧ Dbl.lt a b = true ∧ Dbl.le b t1 = true := by
        intro h
        simp only [Event.call.injEq] at h
        obtain ⟨_, rfl, rfl⟩ := h
        exact base
      rcases hcase with ⟨_, c, hc, rfl⟩ | ⟨_, _, c, hc, rfl⟩ |
        ⟨hge, hle, f, hf, ⟨_, rfl⟩ | ⟨_, c, hc, rfl⟩⟩
      · rcases List.mem_cons.1 hmem with h | h
        · exact hhead h
        · obtain ⟨p, _, hp⟩ := mem_under_call h
          exact hB _ _ _ c (SplitsDefined_back hs d) ht hc p a b hp
      · rcases List.mem_cons.1 hmem with h | h
        · exact hhead h
        · obtain ⟨p, _, hp⟩ := mem_under_call h
          exact hF _ _ _ c (SplitsDefined_front hs d) ht hc p a b hp
      · have hlo : Dbl.lt t0 (Dbl.div (Dbl.sub val o) d) = true :=
          Dbl.lt_of_le_eq_false hsplit ht0 hge
        have hhi : Dbl.lt (Dbl.div (Dbl.sub val o) d) t1 = true :=
          Dbl.lt_of_le_eq_false ht1 hsplit hle
        rcases List.mem_cons.1 hmem with h | h
        · exact hhead h
        · obtain ⟨p, _, hp⟩ := mem_under_call h
          obtain ⟨h1, h2, h3⟩ := hF _ _ _ f (SplitsDefined_front hs d) hlo hf p a b hp
          exact ⟨h1, h2, Dbl.le_trans h3 (Dbl.le_of_lt hhi)⟩
      · have hlo : Dbl.lt t0 (Dbl.div (Dbl.sub val o) d) = true :=
          Dbl.lt_of_le_eq_false hsplit ht0 hge
        have hhi : Dbl.lt (Dbl.div (Dbl.sub val o) d) t1 = true :=
          Dbl.lt_of_le_eq_false ht1 hsplit hle
        rcases List.mem_cons.1 hmem with h | h
        · exact hhead h
        · rcases List.mem_append.1 h with h | h
          · obtain ⟨p, _, hp⟩ := mem_under_call h
            obtain ⟨h1, h2, h3⟩ := hF _ _ _ f (SplitsDefined_front hs d) hlo hf p a b hp
            exact ⟨h1, h2, Dbl.le_trans h3 (Dbl.le_of_lt hhi)⟩
          · obtain ⟨p, _, hp⟩ := mem_under_call h
            have hgeo := intersect_keeps Epsilon _ ray _ _ f hkF hf
            obtain ⟨h1, h2, h3⟩ := hB _ _ _ c
              (SplitsDefined_congr hgeo.1.symm hgeo.2.symm _ (SplitsDefined_back hs d))
              hhi hc p a b hp
            exact ⟨Dbl.le_trans (Dbl.le_of_lt hlo) h1, h2, h3⟩

/-- The intervals of the recursive calls a branch node makes itself, when its split distance
is a number. -/
theorem child_intervals (Epsilon : Dbl) (prims : List IPrim) (dim : Int) (val : Dbl)
    (l r : ptr_bspnode_t) (ray : Ray) (t0 t1 o d : Dbl) (out : Outcome)
    (hbranch : isLeaf l r = false)
    (ho : ray.org.get dim = .ok o) (hd : ray.dir.get dim = .ok d)
    (hsplit : Dbl.div (Dbl.sub val o) d ≠ Dbl.nan) (ht : Dbl.lt t0 t1 = true)
    (hok : intersect Epsilon (.node prims dim val l r) ray t0 t1 = .ok out) :
    ∀ s a b, Event.call [s] a b ∈ out.log →
      Dbl.le t0 a = true ∧ Dbl.lt a b = true ∧ Dbl.le b t1 = true := by
  have ht0 : t0 ≠ Dbl.nan := Dbl.ne_nan_of_lt_left ht
  have ht1 : t1 ≠ Dbl.nan := Dbl.ne_nan_of_lt_right ht
  obtain ⟨o', d', ho', hd', hcase⟩ :=
    intersect_branch_cases Epsilon prims dim val l r hbranch ray t0 t1 out hok
  have eo : o' = o := by rw [ho] at ho'; cases ho'; rfl
  have ed : d' = d := by rw [hd] at hd'; cases hd'; rfl
  subst eo ed
  intro s a b hmem
  have sub1 : ∀ (side : Side) (c : Outcome) (n' : ptr_bspnode_t) (ray' : Ray) (x y : Dbl),
      intersect Epsilon n' ray' x y = .ok c →
      Event.call [s] a b ∈ c.log.map (Event.under side) → a = x ∧ b = y := by
    intro side c n' ray' x y hc h
    obtain ⟨p, hp, hpm⟩ := mem_under_call h
    simp only [List.cons.injEq] at hp
    obtain ⟨_, rfl⟩ := hp
    exact root_call Epsilon n' ray' x y c hc a b hpm
  have nohead : Event.call [s] a b ≠ Event.call [] t0 t1 := by simp
  rcases hcase with ⟨_, c, hc, rfl⟩ | ⟨_, _, c, hc, rfl⟩ |
    ⟨hge, hle, f, hf, ⟨_, rfl⟩ | ⟨_, c, hc, rfl⟩⟩
  · rcases List.mem_cons.1 hmem with h | h
    · exact absurd h nohead
    · obtain ⟨rfl, rfl⟩ := sub1 _ c _ _ _ _ hc h
      exact ⟨Dbl.le_refl ht0, ht, Dbl.le_refl ht1⟩
  · rcases List.mem_cons.1 hmem with h | h
    · exact absurd h nohead
    · obtain ⟨rfl, rfl⟩ := sub1 _ c _ _ _ _ hc h
      exact ⟨Dbl.le_refl ht0, ht, Dbl.le_refl ht1⟩
  · have hlo : Dbl.lt t0 (Dbl.div (Dbl.sub val o') d') = true :=
      Dbl.lt_of_le_eq_false hsplit ht0 hge
    have hhi : Dbl.lt (Dbl.div (Dbl.sub val o') d') t1 = true :=
      Dbl.lt_of_le_eq_false ht1 hsplit hle
    rcases List.mem_cons.1 hmem with h | h
    · exact absurd h nohead
    · obtain ⟨rfl, rfl⟩ := sub1 _ f _ _ _ _ hf h
      exact ⟨Dbl.le_refl ht0, hlo, Dbl.le_of_lt hhi⟩
  · have hlo : Dbl.lt t0 (Dbl.div (Dbl.sub val o') d') = true :=
      Dbl.lt_of_le_eq_false hsplit ht0 hge
    have hhi : Dbl.lt (Dbl.div (Dbl.sub val o') d') t1 = true :=
      Dbl.lt_of_le_eq_false ht1 hsplit hle
    rcases List.mem_cons.1 hmem with h | h
    · exact absurd h nohead
    · rcases List.mem_append.1 h with h | h
      · obtain ⟨rfl, rfl⟩ := sub1 _ f _ _ _ _ hf h
        exact ⟨Dbl.le_refl ht0, hlo, Dbl.le_of_lt hhi⟩
      · obtain ⟨rfl, rfl⟩ := sub1 _ c _ _ _ _ hc h
        exact ⟨Dbl.le_of_lt hlo, hhi, Dbl.le_refl ht1⟩

/-- C17, as stated, fails.  The root of `planeTree`, a branch node, is called with
`[0, 10]`, and `0 < 10`; the ray runs in its split plane, the split distance is NaN, and
the recursive call it makes on its left child receives the interval `[0, NaN]`, for which
`a < b` does not hold. -/
theorem interval_precondition_lost :
    Dbl.lt (Dbl.fin 0) (Dbl.fin 10) = true ∧
    ∃ out, intersect (Dbl.fin (1 / 1000)) planeTree upRay (Dbl.fin 0) (Dbl.fin 10) = .ok out ∧
      Event.call [Side.left] (Dbl.fin 0) Dbl.nan ∈ out.log ∧
      Dbl.lt (Dbl.fin 0) Dbl.nan = false := by
  refine ⟨by norm_num [Dbl.lt_fin], _, plane_query, ?_, rfl⟩
  simp

/-- C17, amended.  On a tree that satisfies the leaf/branch invariant, called with
`t0 < t1`, `intersect` returns, and: (1) if the node is a branch node whose split distance
is a number, every recursive call it makes receives an interval `[a, b]` with
`t0 <= a < b <= t1`; (2) if the primitives leave the ray's origin and direction unchanged
and every split distance of the tree is a number, the same holds for the call on every
node reached, so the requirement `t0 < t1` holds at every node. -/
theorem interval_precondition_kept (Epsilon : Dbl) (n : ptr_bspnode_t) (ray : Ray)
    (t0 t1 : Dbl) (hwf : wellFormed n = true) (ht : Dbl.lt t0 t1 = true) :
    ∃ out, intersect Epsilon n ray t0 t1 = .ok out ∧
      (∀ prims dim val l r o d, n = .node prims dim val l r → isLeaf l r = false →
        ray.org.get dim = .ok o → ray.dir.get dim = .ok d →
        Dbl.div (Dbl.sub val o) d ≠ Dbl.nan →
        ∀ s a b, Event.call [s] a b ∈ out.log →
          Dbl.le t0 a = true ∧ Dbl.lt a b = true ∧ Dbl.le b t1 = true) ∧
      ((∀ p ∈ leafPrims n, KeepsGeometry p) → SplitsDefined ray n →
        ∀ path a b, Event.call path a b ∈ out.log →
          Dbl.le t0 a = true ∧ Dbl.lt a b = true ∧ Dbl.le b t1 = true) := by
  obtain ⟨out, hok⟩ := intersect_returns Epsilon n hwf ray t0 t1
  refine ⟨out, hok, ?_, fun hk hs => intervals_kept Epsilon n ray t0 t1 out hk hs ht hok⟩
  intro prims dim val l r o d hn hbranch ho hd hsplit
  subst hn
  exact child_intervals Epsilon prims dim val l r ray t0 t1 o d out hbranch ho hd hsplit ht hok

/-- C17 amended, at the scenario tree and its forward ray with the interval `[0, 10]`. -/
theorem interval_precondition_kept_witness :
    Dbl.lt (Dbl.fin 0) (Dbl.fin 10) = true ∧
    ∃ out, intersect (Dbl.fin (1 / 1000)) scenarioTree forwardRay (Dbl.fin 0) (Dbl.fin 10)
        = .ok out ∧
      ∀ path a b, Event.call path a b ∈ out.log →
        Dbl.le (Dbl.fin 0) a = true ∧ Dbl.lt a b = true ∧ Dbl.le b (Dbl.fin 10) = true := by
  have ht : Dbl.lt (Dbl.fin 0) (Dbl.fin 10) = true := by norm_num [Dbl.lt_fin]
  obtain ⟨out, hok, _, h⟩ := interval_precondition_kept (Dbl.fin (1 / 1000)) scenarioTree
    forwardRay (Dbl.fin 0) (Dbl.fin 10) rfl ht
  exact ⟨ht, out, hok,
    h (fun p hp => (scenarioTree_obeys p hp).keeps) scenarioTree_splitsDefined⟩

/-! ## Well-placed trees against brute force over the whole tree -/

namespace Dbl

/-- In exact arithmetic a value that does not exceed a bound is below the bound with a
positive tolerance. -/
theorem lt_add_of_pos {x b e : Dbl} (h : le x b = true) (hx : lt x pinf = true)
    (hb : b ≠ ninf) (he : lt (fin 0) e = true) : lt x (add b e) = true := by
  cases x <;> cases b <;> cases e <;> simp_all [lt, le, add] <;> linarith

end Dbl

theorem hitDistance_hitAt (d : Dbl) (hd : Dbl.lt d Dbl.pinf = true) (ray : Ray) :
    hitDistance (hitAt d) ray = some d := by
  simp [hitDistance, hitAt_intersect, hd]

/-- Brute force on the tree `toleranceTree`: the closest hit is that of the plane
`x = 5 + 1/4096`. -/
theorem toleranceTree_closestHit :
    closestHit (leafPrims toleranceTree) forwardRay = some (Dbl.fin (5 + 1 / 4096)) := by
  have h : leafPrims toleranceTree =
      [straddlingPrim, straddlingPrim, planeX (Dbl.fin (5 + 1 / 4096))] := rfl
  have h1 : straddlingPrim.intersect forwardRay
      = { forwardRay with t := Dbl.fin (5 + 1 / 2048), hit := true } := by
    rw [straddlingPrim, hitAt_intersect]
    norm_num [forwardRay, Dbl.lt_fin_pinf]
  have h2 : straddlingPrim.intersect { forwardRay with t := Dbl.fin (5 + 1 / 2048), hit := true }
      = { forwardRay with t := Dbl.fin (5 + 1 / 2048), hit := true } := by
    rw [straddlingPrim, hitAt_intersect]
    norm_num [forwardRay, Dbl.lt_fin]
  have h3 : (planeX (Dbl.fin (5 + 1 / 4096))).intersect
        { forwardRay with t := Dbl.fin (5 + 1 / 2048), hit := true }
      = { forwardRay with t := Dbl.fin (5 + 1 / 4096), hit := true } := by
    rw [planeX_intersect (5 + 1 / 4096) 0 1 _ rfl rfl (by norm_num) (by norm_num)]
    norm_num [forwardRay, Dbl.lt_fin]
  simp only [closestHit, h, testAgainst_cons, testAgainst_nil, h1, h2, h3]
  rfl

end BSP
